import Mathlib

/-!
Verification of the p-odm object-document mapper against its specification.

Each section embeds one component of the JavaScript source as executable Lean
definitions and proves (or refutes) the spec claims about it:

* `src/lib/helpers/cache.js` — the bounded TTL cache (get/set/del/reset/prune).
* `src/lib/helpers/arrays.js` — the in-memory query matcher.
* `src/lib/protos/common.js` / `src/lib/view.js` — the `after` join primitive
  and View composition.
* `src/lib/model.js` / `src/lib/schema.js` — `loadDbRef`, `initialize`,
  `buildInternalSchema`'s `baseSetter`, `createValidator` and `validate`.

JavaScript objects are modelled as insertion-ordered association lists with
unique keys, `Date.now()` as an explicit `now : Nat` parameter, thrown
exceptions as `Except`, and `undefined` as `Option.none`.
-/

namespace PODM

/-! ## Bounded TTL cache (`src/lib/helpers/cache.js`)

The cache stores opaque documents under string keys.  `store` models the JS
object `this.store` (insertion-ordered, unique keys); `keys` models the live
counter `this.keys` (an IEEE number that the JS code can in principle drive
negative, hence `Int`).  The deferred `process.nextTick` prune body is
modelled as the separate operation `pruneRun`.
-/

/-- Opaque payload stored in the query cache. -/
abbrev CDoc := Nat

/-- One cache entry: last-access time plus the cached document
(`{atime, document}` in `Cache.prototype.set`). -/
structure Entry where
  atime : Nat
  document : CDoc
deriving Repr, DecidableEq

/-- The cache state (`function Cache(options)`). -/
structure Cache where
  store : List (String × Entry)
  size : Nat
  ttl : Nat
  keys : Int
deriving Repr, DecidableEq

/-- `new Cache({cacheSize, ttl})`: empty store, zero key counter. -/
def Cache.init (cacheSize ttl : Nat) : Cache :=
  { store := [], size := cacheSize, ttl := ttl, keys := 0 }

/-- `Cache.prototype.has`: `if (id) { return this.store.hasOwnProperty(id); }
return false;` — the `if (id)` guard makes every falsy key (for string keys,
the empty string) report absent even when an entry is stored under it. -/
def Cache.has (c : Cache) (id : String) : Bool :=
  if id ≠ "" then c.store.any (fun p => p.1 = id) else false

/-- Assignment `store[id] = e` on a JS object: overwrite in place if the key
exists, otherwise append. -/
def storeSet : List (String × Entry) → String → Entry → List (String × Entry)
  | [], id, e => [(id, e)]
  | (k, e0) :: rest, id, e =>
      if k = id then (k, e) :: rest else (k, e0) :: storeSet rest id e

/-- Property read `store[id]` on a JS object (`undefined` when absent). -/
def storeFind (st : List (String × Entry)) (id : String) : Option Entry :=
  (st.find? (fun p => p.1 = id)).map Prod.snd

/-- `delete store[id]` on a JS object. -/
def storeDel (st : List (String × Entry)) (id : String) : List (String × Entry) :=
  st.filter (fun p => ¬ p.1 = id)

/-- `Cache.prototype.del`: delete the entry and decrement the counter only
when the key is present. -/
def Cache.del (c : Cache) (id : String) : Cache :=
  if c.has id then { c with store := storeDel c.store id, keys := c.keys - 1 }
  else c

/-- `Cache.prototype.get` at wall-clock time `now`: an entry older than `ttl`
is deleted and reported absent (`undefined`); otherwise its access time is
refreshed and the document returned.  Returns the result together with the
updated cache state. -/
def Cache.get (c : Cache) (id : String) (now : Nat) : Option CDoc × Cache :=
  match storeFind c.store id with
  | none => (none, c)
  | some e =>
      if e.atime + c.ttl < now then
        (none, c.del id)
      else
        (some e.document, { c with store := storeSet c.store id { e with atime := now } })

/-- `Cache.prototype.set` at wall-clock time `now`: bump the counter for a
fresh key, then store `{atime: Date.now(), document: doc}`.  The `prune()`
call only schedules `pruneRun` on the next tick, so it is not part of this
state transition. -/
def Cache.set (c : Cache) (id : String) (doc : CDoc) (now : Nat) : Cache :=
  let c1 := if c.has id then c else { c with keys := c.keys + 1 }
  { c1 with store := storeSet c1.store id { atime := now, document := doc } }

/-- `Cache.prototype.reset`: delete every key and zero the counter. -/
def Cache.reset (c : Cache) : Cache :=
  { c with store := [], keys := 0 }

/-- `self.store[k].atime` as used by the prune comparator (0 for a missing
key, which never happens on `Object.keys(self.store)`). -/
def atimeOf (st : List (String × Entry)) (k : String) : Nat :=
  match storeFind st k with
  | some e => e.atime
  | none => 0

/-- The deferred prune body (`process.nextTick` callback in
`Cache.prototype.prune`): sort all keys by ascending access time with the
comparator `store[a].atime > store[b].atime ? 1 : -1`, delete the oldest
`keys - size` of them, and decrement the counter by the same amount.
`insertionSort` is a stable comparison sort, matching the JS engine sort for
this comparator. -/
def Cache.pruneRun (c : Cache) : Cache :=
  let objKeys := c.store.map Prod.fst
  let pruned := c.keys - (c.size : Int)
  let sorted := objKeys.insertionSort (fun a b => atimeOf c.store a ≤ atimeOf c.store b)
  let store1 := (sorted.take pruned.toNat).foldl (fun st k => storeDel st k) c.store
  { c with store := store1, keys := c.keys - pruned }

theorem storeFind_storeSet_self (st : List (String × Entry)) (id : String) (e : Entry) :
    storeFind (storeSet st id e) id = some e := by
  induction st with
  | nil => simp [storeSet, storeFind]
  | cons p rest ih =>
      obtain ⟨k, e0⟩ := p
      by_cases h : k = id
      · simp [storeSet, storeFind, h]
      · simpa [storeSet, storeFind, List.find?, h] using ih

theorem has_eq_any (c : Cache) (id : String) (hid : id ≠ "") :
    c.has id = c.store.any (fun p => p.1 = id) := by
  simp [Cache.has, hid]

theorem has_true_any (c : Cache) (id : String) (h : c.has id = true) :
    c.store.any (fun p => p.1 = id) = true := by
  by_cases hid : id = ""
  · subst hid
    simp [Cache.has] at h
  · rwa [has_eq_any c id hid] at h

theorem storeFind_storeDel_self (st : List (String × Entry)) (id : String) :
    storeFind (storeDel st id) id = none := by
  rw [storeFind]
  have hnone : (storeDel st id).find? (fun p => p.1 = id) = none := by
    apply List.find?_eq_none.mpr
    intro q hq
    have h2 := of_decide_eq_true ((List.mem_filter.mp hq).2)
    simp [h2]
  rw [hnone]
  rfl

/-- C7 counterexample: for the falsy key `""` a stale `get` does *not*
evict.  `get` finds the entry through `hasOwnProperty` directly, but the
eviction goes through `del`, whose `has("")` is always false because of the
`if (id)` guard — so `del("")` is a no-op and the expired entry stays in
the store, while the claim asserts eviction for every key. -/
theorem cache_ttl_empty_key_counterexample :
    ((((Cache.init 4 100).set "" 7 0).get "" 200).1 = none) ∧
    0 + (Cache.init 4 100).ttl < 200 ∧
    storeFind ((((Cache.init 4 100).set "" 7 0).get "" 200).2).store "" =
      some { atime := 0, document := 7 } :=
  ⟨rfl, by decide, rfl⟩

/-- C7 (amended): for every *non-empty* key `k`, after `set(k, v)` at time
`t0` a `get(k)` strictly more than `ttl` milliseconds later returns
`undefined` and deletes the entry from the store as a side effect, while a
`get(k)` strictly before `ttl` milliseconds have elapsed returns `v`.  For
the falsy key `""` the stale read still returns `undefined`, but the
eviction is a no-op (`has("")` is always false, so `del("")` deletes
nothing) and the expired entry remains stored. -/
theorem cache_ttl_get (c : Cache) (k : String) (v : CDoc) (t0 t1 : Nat)
    (hk : k ≠ "") :
    (t0 + c.ttl < t1 →
      ((c.set k v t0).get k t1).1 = none ∧
      storeFind ((c.set k v t0).get k t1).2.store k = none) ∧
    (t1 < t0 + c.ttl →
      ((c.set k v t0).get k t1).1 = some v) := by
  have httl : (c.set k v t0).ttl = c.ttl := by
    unfold Cache.set
    by_cases h : c.has k <;> simp [h]
  have hfind : storeFind (c.set k v t0).store k = some { atime := t0, document := v } := by
    unfold Cache.set
    by_cases h : c.has k <;> simp [h, storeFind_storeSet_self]
  constructor
  · intro hstale
    have hcond : (t0 + (c.set k v t0).ttl < t1) = True := by
      rw [httl]; exact eq_true hstale
    have hget : (c.set k v t0).get k t1 = (none, (c.set k v t0).del k) := by
      unfold Cache.get
      rw [hfind]
      simp only [hcond, if_true]
    rw [hget]
    refine ⟨rfl, ?_⟩
    set c1 := c.set k v t0 with hc1
    have hany : c1.store.any (fun p => p.1 = k) = true := by
      rcases hf2 : c1.store.find? (fun p => p.1 = k) with _ | q
      · rw [storeFind, hf2] at hfind
        exact Option.noConfusion hfind
      · have hq := List.find?_some hf2
        exact List.any_eq_true.mpr ⟨q, List.mem_of_find?_eq_some hf2, hq⟩
    have hhas : c1.has k = true := by
      rw [has_eq_any _ _ hk]
      exact hany
    have hdel : c1.del k =
        { c1 with store := storeDel c1.store k, keys := c1.keys - 1 } := by
      simp [Cache.del, hhas]
    rw [hdel]
    exact storeFind_storeDel_self _ k
  · intro hfresh
    have hcond : ¬ (t0 + (c.set k v t0).ttl < t1) := by
      rw [httl]; omega
    unfold Cache.get
    rw [hfind]
    simp only [hcond, if_false]

/-- Witness for C7 (amended) on a concrete cache: ttl 30000, set at time 0,
stale read at 40000 (entry gone from the store), fresh read at 100. -/
theorem cache_ttl_get_witness :
    (0 + (Cache.init 16 30000).ttl < 40000 ∧
      (((Cache.init 16 30000).set "k" 7 0).get "k" 40000).1 = none ∧
      storeFind ((((Cache.init 16 30000).set "k" 7 0).get "k" 40000).2).store "k"
        = none) ∧
    (100 < 0 + (Cache.init 16 30000).ttl ∧
      (((Cache.init 16 30000).set "k" 7 0).get "k" 100).1 = some 7) :=
  ⟨⟨by decide,
    (cache_ttl_get (Cache.init 16 30000) "k" 7 0 40000 (by decide)).1 (by decide)⟩,
   ⟨by decide,
    (cache_ttl_get (Cache.init 16 30000) "k" 7 0 100 (by decide)).2 (by decide)⟩⟩

theorem storeSet_map_fst (st : List (String × Entry)) (id : String) (e : Entry) :
    (storeSet st id e).map Prod.fst =
      if st.any (fun p => p.1 = id) then st.map Prod.fst
      else st.map Prod.fst ++ [id] := by
  induction st with
  | nil => simp [storeSet]
  | cons p rest ih =>
      obtain ⟨k, e0⟩ := p
      by_cases h : k = id
      · simp [storeSet, h]
      · by_cases hr : rest.any (fun p => p.1 = id)
        · simp [storeSet, h, ih, hr]
        · simp [storeSet, h, ih, hr]


theorem storeDel_length (st : List (String × Entry)) (id : String)
    (hnd : (st.map Prod.fst).Nodup) (hmem : st.any (fun p => p.1 = id) = true) :
    (storeDel st id).length + 1 = st.length := by
  induction st with
  | nil => simp at hmem
  | cons p rest ih =>
      obtain ⟨k, e⟩ := p
      simp only [List.map_cons, List.nodup_cons] at hnd
      by_cases h : k = id
      · subst h
        have hkeep : storeDel rest k = rest := by
          apply List.filter_eq_self.mpr
          intro q hq
          simp only [decide_eq_true_eq]
          intro hk
          exact hnd.1 (hk ▸ List.mem_map_of_mem Prod.fst hq)
        have hstep : storeDel ((k, e) :: rest) k = storeDel rest k := by
          simp [storeDel, List.filter_cons]
        rw [hstep, hkeep, List.length_cons]
      · have hmem' : rest.any (fun p => p.1 = id) = true := by
          simpa [List.any_cons, h] using hmem
        have hrec := ih hnd.2 hmem'
        simp only [storeDel, List.filter_cons, decide_eq_true_eq] at *
        simp only [h, not_false_iff, decide_eq_true_eq, if_pos]
        simp only [List.length_cons]
        omega

theorem storeDel_map_fst_nodup (st : List (String × Entry)) (id : String)
    (hnd : (st.map Prod.fst).Nodup) : ((storeDel st id).map Prod.fst).Nodup := by
  have hsub : List.Sublist (storeDel st id) st := List.filter_sublist st
  exact (hsub.map Prod.fst).nodup hnd

/-- The C10 invariant: the live counter `keys` equals the number of entries
stored in `store`. -/
def Cache.inv (c : Cache) : Prop := c.keys = (c.store.length : Int)

/-- Uniqueness of JS object keys, maintained by every cache operation. -/
def Cache.wfKeys (c : Cache) : Prop := (c.store.map Prod.fst).Nodup

instance (c : Cache) : Decidable c.inv :=
  inferInstanceAs (Decidable (c.keys = (c.store.length : Int)))

instance (c : Cache) : Decidable c.wfKeys :=
  inferInstanceAs (Decidable (c.store.map Prod.fst).Nodup)

theorem cache_del_preserves (c : Cache) (id : String) (hinv : c.inv) (hnd : c.wfKeys) :
    (c.del id).inv ∧ (c.del id).wfKeys := by
  by_cases h : c.has id
  · have heq : c.del id = { c with store := storeDel c.store id, keys := c.keys - 1 } := by
      simp [Cache.del, h]
    have hlen := storeDel_length c.store id hnd (has_true_any c id h)
    rw [heq]
    constructor
    · show c.keys - 1 = ((storeDel c.store id).length : Int)
      rw [Cache.inv] at hinv
      omega
    · exact storeDel_map_fst_nodup c.store id hnd
  · have heq : c.del id = c := by simp [Cache.del, h]
    rw [heq]
    exact ⟨hinv, hnd⟩

theorem cache_set_preserves (c : Cache) (id : String) (d : CDoc) (now : Nat)
    (hid : id ≠ "") (hinv : c.inv) (hnd : c.wfKeys) :
    (c.set id d now).inv ∧ (c.set id d now).wfKeys := by
  have hmap := storeSet_map_fst c.store id { atime := now, document := d }
  by_cases h : c.store.any (fun p => p.1 = id)
  · rw [if_pos h] at hmap
    have hhas : c.has id = true := by
      rw [has_eq_any c id hid]
      exact h
    have heq : c.set id d now =
        { c with store := storeSet c.store id { atime := now, document := d } } := by
      simp [Cache.set, hhas]
    have hlen : (storeSet c.store id { atime := now, document := d }).length =
        c.store.length := by
      have := congrArg List.length hmap
      simpa using this
    rw [heq]
    constructor
    · show c.keys = ((storeSet c.store id { atime := now, document := d }).length : Int)
      rw [hlen]
      exact hinv
    · show ((storeSet c.store id { atime := now, document := d }).map Prod.fst).Nodup
      rw [hmap]
      exact hnd
  · have h' : c.store.any (fun p => p.1 = id) = false := Bool.not_eq_true _ |>.mp h
    have hhas : c.has id = false := by
      rw [has_eq_any c id hid]
      exact h'
    rw [h'] at hmap
    simp only [Bool.false_eq_true, if_false] at hmap
    have hnotin : id ∉ c.store.map Prod.fst := by
      intro hin
      obtain ⟨p, hp, hpe⟩ := List.mem_map.mp hin
      have : c.store.any (fun p => p.1 = id) = true :=
        List.any_eq_true.mpr ⟨p, hp, by simp [hpe]⟩
      rw [h'] at this
      exact Bool.false_ne_true this
    have heq : c.set id d now =
        { c with store := storeSet c.store id { atime := now, document := d },
                 keys := c.keys + 1 } := by
      simp [Cache.set, hhas]
    have hlen : (storeSet c.store id { atime := now, document := d }).length =
        c.store.length + 1 := by
      have := congrArg List.length hmap
      simpa using this
    rw [heq]
    constructor
    · show c.keys + 1 = ((storeSet c.store id { atime := now, document := d }).length : Int)
      rw [Cache.inv] at hinv
      omega
    · show ((storeSet c.store id { atime := now, document := d }).map Prod.fst).Nodup
      rw [hmap]
      rw [List.nodup_append]
      refine ⟨hnd, List.nodup_singleton id, ?_⟩
      intro a ha hb
      rw [List.mem_singleton] at hb
      subst hb
      exact hnotin ha

theorem cache_get_preserves (c : Cache) (id : String) (now : Nat)
    (hinv : c.inv) (hnd : c.wfKeys) :
    ((c.get id now).2).inv ∧ ((c.get id now).2).wfKeys := by
  cases hf : storeFind c.store id with
  | none =>
      have heq : c.get id now = (none, c) := by simp [Cache.get, hf]
      rw [heq]
      exact ⟨hinv, hnd⟩
  | some e =>
      have hany : c.store.any (fun p => p.1 = id) = true := by
        rcases hfind : c.store.find? (fun p => p.1 = id) with _ | q
        · rw [storeFind, hfind] at hf
          exact Option.noConfusion hf
        · have hq := List.find?_some hfind
          have hmem := List.mem_of_find?_eq_some hfind
          exact List.any_eq_true.mpr ⟨q, hmem, hq⟩
      by_cases hstale : e.atime + c.ttl < now
      · have heq : c.get id now = (none, c.del id) := by simp [Cache.get, hf, hstale]
        rw [heq]
        exact cache_del_preserves c id hinv hnd
      · have heq : c.get id now =
            (some e.document, { c with store := storeSet c.store id { e with atime := now } }) := by
          simp [Cache.get, hf, hstale]
        rw [heq]
        have hmap := storeSet_map_fst c.store id { e with atime := now }
        rw [if_pos hany] at hmap
        have hlen : (storeSet c.store id { e with atime := now }).length =
            c.store.length := by
          have := congrArg List.length hmap
          simpa using this
        constructor
        · show c.keys = ((storeSet c.store id { e with atime := now }).length : Int)
          rw [hlen]
          exact hinv
        · show ((storeSet c.store id { e with atime := now }).map Prod.fst).Nodup
          rw [hmap]
          exact hnd

/-- C10 counterexample: the `if (id)` guard in `has` makes `has("")` false
even when an entry is stored under the empty key, so a second `set("")`
takes the fresh-key branch and increments `keys` without adding an entry —
`keys = |store|` is violated at a reachable state. -/
theorem cache_empty_key_counterexample :
    (((Cache.init 4 100).set "" 1 5).set "" 2 6).keys = 2 ∧
    (((Cache.init 4 100).set "" 1 5).set "" 2 6).store.length = 1 ∧
    ¬ (((Cache.init 4 100).set "" 1 5).set "" 2 6).inv :=
  ⟨rfl, rfl, by decide⟩

/-- C10 (amended): `keys` equals the number of entries in `store` for a
freshly constructed cache, and the invariant is preserved by `set` of any
*non-empty* (JS-truthy) key (fresh or existing), by `get` of any key
(including its lazy-expiry deletion, which for `""` is a no-op), by `del`
of any key (present, absent, or the no-op `""`), and by `reset`; uniqueness
of stored keys is preserved alongside.  For the falsy key `""` a repeated
`set` increments the counter without storing a new entry, breaking the
invariant (see the counterexample). -/
theorem cache_keys_counter_invariant (sz tl : Nat) (c : Cache) (id : String)
    (d : CDoc) (now : Nat) (hid : id ≠ "") (h : c.inv ∧ c.wfKeys) :
    ((Cache.init sz tl).inv ∧ (Cache.init sz tl).wfKeys) ∧
    ((c.set id d now).inv ∧ (c.set id d now).wfKeys) ∧
    (((c.get id now).2).inv ∧ ((c.get id now).2).wfKeys) ∧
    ((c.del id).inv ∧ (c.del id).wfKeys) ∧
    (c.reset.inv ∧ c.reset.wfKeys) :=
  ⟨⟨by simp [Cache.init, Cache.inv], by simp [Cache.init, Cache.wfKeys]⟩,
    cache_set_preserves c id d now hid h.1 h.2,
    cache_get_preserves c id now h.1 h.2,
    cache_del_preserves c id h.1 h.2,
    ⟨by simp [Cache.reset, Cache.inv], by simp [Cache.reset, Cache.wfKeys]⟩⟩

/-- Witness for C10 (amended) on a concrete one-entry cache with non-empty
keys. -/
theorem cache_keys_counter_invariant_witness :
    ((Cache.init 4 100).set "a" 1 5).inv ∧ ((Cache.init 4 100).set "a" 1 5).wfKeys ∧
    ((((Cache.init 4 100).set "a" 1 5).set "b" 2 6).inv ∧
      (((Cache.init 4 100).set "a" 1 5).set "b" 2 6).wfKeys) :=
  ⟨by decide, by decide,
    (cache_keys_counter_invariant 4 100 ((Cache.init 4 100).set "a" 1 5) "b" 2 6
      (by decide) ⟨by decide, by decide⟩).2.1⟩

/-! ### Prune / LRU eviction (claim C8)

`fillFrom` performs a sequence of `set` calls with strictly increasing wall
clock, modelling the insertion of successive distinct keys; `spine` is the
store such a sequence produces.
-/

/-- The store produced by inserting `ks` in order starting at time `t`
(document payload 0). -/
def spine : List String → Nat → List (String × Entry)
  | [], _ => []
  | k :: rest, t => (k, { atime := t, document := 0 }) :: spine rest (t + 1)

/-- Insert the keys `ks` one `set` per millisecond starting at time `t`. -/
def fillFrom (c : Cache) : List String → Nat → Cache
  | [], _ => c
  | k :: rest, t => fillFrom (c.set k 0 t) rest (t + 1)

theorem spine_map_fst (ks : List String) (t : Nat) :
    (spine ks t).map Prod.fst = ks := by
  induction ks generalizing t with
  | nil => simp [spine]
  | cons k rest ih => simp [spine, ih]

theorem spine_length (ks : List String) (t : Nat) : (spine ks t).length = ks.length := by
  induction ks generalizing t with
  | nil => simp [spine]
  | cons k rest ih => simp [spine, ih]

theorem mem_spine_fst (ks : List String) (t : Nat) (p : String × Entry)
    (hp : p ∈ spine ks t) : p.1 ∈ ks := by
  have := List.mem_map_of_mem Prod.fst hp
  rwa [spine_map_fst] at this

theorem storeSet_of_not_has (st : List (String × Entry)) (id : String) (e : Entry)
    (h : st.any (fun p => p.1 = id) = false) : storeSet st id e = st ++ [(id, e)] := by
  induction st with
  | nil => simp [storeSet]
  | cons p rest ih =>
      obtain ⟨k, e0⟩ := p
      simp only [List.any_cons, Bool.or_eq_false_iff, decide_eq_false_iff_not] at h
      simp [storeSet, h.1, ih h.2]

theorem fillFrom_spec (c : Cache) (ks : List String) (t : Nat)
    (hnd : ks.Nodup)
    (hfresh : ∀ x ∈ ks, c.store.any (fun p => p.1 = x) = false) :
    (fillFrom c ks t).store = c.store ++ spine ks t ∧
    (fillFrom c ks t).keys = c.keys + (ks.length : Int) ∧
    (fillFrom c ks t).size = c.size ∧ (fillFrom c ks t).ttl = c.ttl := by
  induction ks generalizing c t with
  | nil => simp [fillFrom, spine]
  | cons k0 rest ih =>
      simp only [List.nodup_cons] at hnd
      have hf0 : c.store.any (fun p => p.1 = k0) = false :=
        hfresh k0 (List.mem_cons_self k0 rest)
      have hhas0 : c.has k0 = false := by
        simp [Cache.has, hf0]
      have hset_store : (c.set k0 0 t).store = c.store ++ [(k0, { atime := t, document := 0 })] := by
        simp [Cache.set, hhas0, storeSet_of_not_has _ _ _ hf0]
      have hset_keys : (c.set k0 0 t).keys = c.keys + 1 := by
        simp [Cache.set, hhas0]
      have hset_size : (c.set k0 0 t).size = c.size := by
        simp [Cache.set, hhas0]
      have hset_ttl : (c.set k0 0 t).ttl = c.ttl := by
        simp [Cache.set, hhas0]
      have hfresh' : ∀ x ∈ rest, (c.set k0 0 t).store.any (fun p => p.1 = x) = false := by
        intro x hx
        have hxk : ¬ (k0 = x) := fun h => hnd.1 (h ▸ hx)
        have hxc : c.store.any (fun p => p.1 = x) = false :=
          hfresh x (List.mem_cons_of_mem k0 hx)
        simp [hset_store, List.any_append, hxc, hxk]
      obtain ⟨ihs, ihk, ihz, iht⟩ := ih (c.set k0 0 t) (t + 1) hnd.2 hfresh'
      refine ⟨?_, ?_, ?_, ?_⟩
      · show (fillFrom (c.set k0 0 t) rest (t + 1)).store = _
        rw [ihs, hset_store, spine, List.append_assoc]
        rfl
      · show (fillFrom (c.set k0 0 t) rest (t + 1)).keys = _
        rw [ihk, hset_keys]
        simp only [List.length_cons]
        push_cast
        ring
      · show (fillFrom (c.set k0 0 t) rest (t + 1)).size = _
        rw [ihz, hset_size]
      · show (fillFrom (c.set k0 0 t) rest (t + 1)).ttl = _
        rw [iht, hset_ttl]

theorem atimeOf_spine (ks : List String) (t : Nat) (hnd : ks.Nodup) :
    ∀ i (h : i < ks.length), atimeOf (spine ks t) ks[i] = t + i := by
  induction ks generalizing t with
  | nil => intro i h; simp at h
  | cons k0 rest ih =>
      intro i h
      simp only [List.nodup_cons] at hnd
      match i with
      | 0 => simp [spine, atimeOf, storeFind]
      | Nat.succ i =>
          have hi : i < rest.length := by
            simpa [List.length_cons] using h
          have hmem : rest[i] ∈ rest := List.getElem_mem hi
          have hne : ¬ (k0 = rest[i]) := fun hk => hnd.1 (hk ▸ hmem)
          have hskip : atimeOf (spine (k0 :: rest) t) rest[i] =
              atimeOf (spine rest (t + 1)) rest[i] := by
            simp [spine, atimeOf, storeFind, List.find?_cons, hne]
          have := ih (t + 1) hnd.2 i hi
          simp only [List.getElem_cons_succ]
          rw [hskip, this]
          omega

theorem foldl_storeDel (l : List String) :
    ∀ st : List (String × Entry),
      l.foldl (fun st k => storeDel st k) st = st.filter (fun p => p.1 ∉ l) := by
  induction l with
  | nil => intro st; simp
  | cons x l ih =>
      intro st
      rw [List.foldl_cons, ih, storeDel, List.filter_filter]
      apply List.filter_congr
      intro p hp
      simp [List.mem_cons, not_or, Bool.and_comm]

theorem spine_filter_drop (n : Nat) (ks : List String) (t : Nat) (hnd : ks.Nodup) :
    (spine ks t).filter (fun p => p.1 ∉ ks.take n) = spine (ks.drop n) (t + n) := by
  induction n generalizing ks t with
  | zero => simp [List.take_zero, List.drop_zero]
  | succ n ih =>
      match ks with
      | [] => simp [spine]
      | k0 :: rest =>
          simp only [List.nodup_cons] at hnd
          have hhead : ((k0, { atime := t, document := 0 }) : String × Entry).1 ∈
              (k0 :: rest).take (n + 1) := by
            simp [List.take_succ_cons]
          have htail : (spine rest (t + 1)).filter
                (fun p => p.1 ∉ (k0 :: rest).take (n + 1)) =
              (spine rest (t + 1)).filter (fun p => p.1 ∉ rest.take n) := by
            apply List.filter_congr
            intro p hp
            have hpk : ¬ (p.1 = k0) := fun h => hnd.1 (h ▸ mem_spine_fst rest (t + 1) p hp)
            simp [List.take_succ_cons, List.mem_cons, hpk]
          have harith : t + 1 + n = t + (n + 1) := by omega
          calc (spine (k0 :: rest) t).filter (fun p => p.1 ∉ (k0 :: rest).take (n + 1))
              = (spine rest (t + 1)).filter (fun p => p.1 ∉ (k0 :: rest).take (n + 1)) := by
                simp [spine, List.filter_cons, hhead]
            _ = (spine rest (t + 1)).filter (fun p => p.1 ∉ rest.take n) := htail
            _ = spine (rest.drop n) (t + 1 + n) := ih rest (t + 1) hnd.2
            _ = spine ((k0 :: rest).drop (n + 1)) (t + (n + 1)) := by
                rw [List.drop_succ_cons, harith]

theorem spine_sorted_atime (ks : List String) (t : Nat) (hnd : ks.Nodup) :
    List.Sorted (fun a b => atimeOf (spine ks t) a ≤ atimeOf (spine ks t) b) ks := by
  rw [List.Sorted, List.pairwise_iff_getElem]
  intro i j hi hj hij
  rw [atimeOf_spine ks t hnd i hi, atimeOf_spine ks t hnd j hj]
  omega

/-- C8: filling an empty cache of capacity `cacheSize` with `cacheSize + k`
distinct keys (strictly increasing access times) and then running the
deferred prune leaves exactly the `cacheSize` most recently accessed keys in
the store; the `k` evicted entries are exactly the `k` with the oldest access
times, and the key counter drops back to `cacheSize`. -/
theorem cache_prune_evicts_lru (sz tl k : Nat) (ks : List String) (t0 : Nat)
    (hk : 1 ≤ k) (hnd : ks.Nodup) (hlen : ks.length = sz + k) :
    ((fillFrom (Cache.init sz tl) ks t0).pruneRun.store.map Prod.fst = ks.drop k) ∧
    (fillFrom (Cache.init sz tl) ks t0).pruneRun.store.length = sz ∧
    (fillFrom (Cache.init sz tl) ks t0).pruneRun.keys = (sz : Int) := by
  obtain ⟨hs, hkeys, hsize, httl⟩ := fillFrom_spec (Cache.init sz tl) ks t0 hnd
    (fun x _ => by simp [Cache.init])
  have hinit_store : (Cache.init sz tl).store = [] := rfl
  have hinit_keys : (Cache.init sz tl).keys = 0 := rfl
  have hinit_size : (Cache.init sz tl).size = sz := rfl
  rw [hinit_store, List.nil_append] at hs
  rw [hinit_keys] at hkeys
  rw [hinit_size] at hsize
  set c := fillFrom (Cache.init sz tl) ks t0 with hc
  have hkeys' : c.keys = ((sz + k : Nat) : Int) := by
    rw [hkeys, hlen]
    push_cast
    ring
  have hpruned : c.keys - (c.size : Int) = (k : Int) := by
    rw [hkeys', hsize]
    push_cast
    ring
  have hobj : c.store.map Prod.fst = ks := by rw [hs, spine_map_fst]
  have hsorted : List.insertionSort
      (fun a b => atimeOf c.store a ≤ atimeOf c.store b) (c.store.map Prod.fst) = ks := by
    rw [hobj, hs]
    exact List.Sorted.insertionSort_eq (spine_sorted_atime ks t0 hnd)
  have hstore1 : ((ks.take ((k : Int).toNat)).foldl (fun st x => storeDel st x) c.store) =
      spine (ks.drop k) (t0 + k) := by
    rw [Int.toNat_natCast, foldl_storeDel, hs]
    exact spine_filter_drop k ks t0 hnd
  have hprune : c.pruneRun =
      { c with store := spine (ks.drop k) (t0 + k), keys := c.keys - (k : Int) } := by
    rw [Cache.pruneRun]
    simp only [hpruned, hsorted]
    rw [hstore1]
  rw [hprune]
  refine ⟨?_, ?_, ?_⟩
  · show (spine (ks.drop k) (t0 + k)).map Prod.fst = ks.drop k
    exact spine_map_fst _ _
  · show (spine (ks.drop k) (t0 + k)).length = sz
    rw [spine_length, List.length_drop, hlen]
    omega
  · show c.keys - (k : Int) = (sz : Int)
    rw [hkeys']
    push_cast
    ring

/-- Witness for C8: capacity 2, three distinct keys, one eviction. -/
theorem cache_prune_evicts_lru_witness :
    1 ≤ 1 ∧ (["a", "b", "c"] : List String).Nodup ∧
    (["a", "b", "c"] : List String).length = 2 + 1 ∧
    ((fillFrom (Cache.init 2 50) ["a", "b", "c"] 10).pruneRun.store.map Prod.fst
      = ["b", "c"]) :=
  ⟨by decide, by decide, by decide,
    (cache_prune_evicts_lru 2 50 1 ["a", "b", "c"] 10 (by decide) (by decide)
      (by decide)).1⟩


/-! ## In-memory query matcher (`src/lib/helpers/arrays.js`)

The tri-state `matches(query, obj)` returns `-2` (bad query), `-3`
(`$in`/`$nin` argument is not an array), `0` (no match) or `1` (match); the
sibling iteration of the file throws errors for the two negative codes but
decides matches identically.  A query object maps each key to either a plain
value, `{$ne: …}`, `{$in: …}` or `{$nin: …}`; the code unwraps `$ne` first
and then looks for `$in`/`$nin` on the unwrapped value, which the grammar
below mirrors.
-/

/-- A JavaScript runtime value as seen by the matcher.  Primitives compare
by value under ===; `oid` models an ObjectID (exposes `.equals`, comparing
hex strings); `obj` models any other object reference (=== is reference
identity, modelled by a tag). -/
inductive JsVal where
  | num (n : Int)
  | str (s : String)
  | bool (b : Bool)
  | null
  | oid (hex : String)
  | obj (ref : Nat)
deriving Repr, DecidableEq

/-- JS strict equality === on matcher values. -/
def jsStrictEq : JsVal → JsVal → Bool
  | .num a, .num b => a = b
  | .str a, .str b => a = b
  | .bool a, .bool b => a = b
  | .null, .null => true
  | .obj a, .obj b => a = b
  | _, _ => false

/-- `matchValue(search, value, reverse)`: use `.equals` when the search value
exposes one (ObjectID), === otherwise; `reverse` negates the outcome. -/
def matchValue (search value : JsVal) (reverse : Bool) : Bool :=
  let eq := match search with
    | .oid h => (match value with | .oid h2 => decide (h = h2) | _ => false)
    | _ => jsStrictEq search value
  if reverse then !eq else eq

/-- Result of the tri-state matcher: `-2`, `-3`, `0`, `1`. -/
inductive MatchResult where
  | badQuery
  | badIn
  | noMatch
  | isMatch
deriving Repr, DecidableEq

/-- The value found under `$in`/`$nin` on a query object: either a JS array
(`Array.isArray` true) or any other value — including null and undefined —
which the code rejects with `-3` before anything else. -/
inductive QInArg where
  | arrOk (xs : List JsVal)
  | notArr (v : JsVal)
deriving Repr, DecidableEq

/-- The value found under `$ne`: null/undefined, a plain value, or an object
carrying `$in`/`$nin` (the code re-examines the unwrapped value). -/
inductive NeArg where
  | nnull
  | nplain (v : JsVal)
  | nin (arg : QInArg)
  | nnin (arg : QInArg)
deriving Repr, DecidableEq

/-- One field of a query object, as the code distinguishes the cases:
null/undefined, a plain value (no `$ne`/`$in`/`$nin` key), or one of the
three operators. -/
inductive QueryVal where
  | qnull
  | plain (v : JsVal)
  | qne (arg : NeArg)
  | qin (arg : QInArg)
  | qnin (arg : QInArg)
deriving Repr, DecidableEq

/-- Property read `obj[key]` guarded by `obj.hasOwnProperty(key)`. -/
def jsObjGet (obj : List (String × JsVal)) (key : String) : Option JsVal :=
  (obj.find? (fun p => p.1 = key)).map Prod.snd

/-- The single-value branch of the key loop: absent field is a non-match,
otherwise `matchValue` with the accumulated `negate` flag decides. -/
def evalSingle (v : JsVal) (negate : Bool) (objVal : Option JsVal) : MatchResult :=
  match objVal with
  | none => .noMatch
  | some ov => if matchValue v ov negate then .isMatch else .noMatch

/-- The `$in`/`$nin` branch of the key loop: scan the array for a first
`matchValue` hit, then apply the `negate` flag. -/
def evalMulti (xs : List JsVal) (negate : Bool) (objVal : Option JsVal) : MatchResult :=
  match objVal with
  | none => .noMatch
  | some ov =>
      let matched := xs.any (fun s => matchValue s ov false)
      if negate then (if matched then .noMatch else .isMatch)
      else (if matched then .isMatch else .noMatch)

/-- One iteration of the key loop in `matches`: resolve the operators in the
order the code checks them (`$ne`, then `$in`, then `$nin`), reporting bad
query values before the field is even read from the candidate object. -/
def evalField (q : QueryVal) (objVal : Option JsVal) : MatchResult :=
  match q with
  | .qnull => .badQuery
  | .plain v => evalSingle v false objVal
  | .qne .nnull => .badQuery
  | .qne (.nplain v) => evalSingle v true objVal
  | .qne (.nin (.notArr _)) => .badIn
  | .qne (.nin (.arrOk xs)) => evalMulti xs true objVal
  | .qne (.nnin (.notArr _)) => .badIn
  | .qne (.nnin (.arrOk xs)) => evalMulti xs true objVal
  | .qin (.notArr _) => .badIn
  | .qin (.arrOk xs) => evalMulti xs false objVal
  | .qnin (.notArr _) => .badIn
  | .qnin (.arrOk xs) => evalMulti xs true objVal

/-- `matches(query, obj)`: iterate the query keys in order; a negative code
or a failed field returns immediately, otherwise continue; all keys passing
yields a match. -/
def jsMatches : List (String × QueryVal) → List (String × JsVal) → MatchResult
  | [], _ => .isMatch
  | (key, q) :: qrest, obj =>
      match evalField q (jsObjGet obj key) with
      | .badQuery => .badQuery
      | .badIn => .badIn
      | .noMatch => .noMatch
      | .isMatch => jsMatches qrest obj

/-- A query field value the matcher will not reject with `-2`/`-3`. -/
def QueryVal.wellFormed : QueryVal → Bool
  | .qnull => false
  | .qne .nnull => false
  | .qne (.nin (.notArr _)) => false
  | .qne (.nnin (.notArr _)) => false
  | .qin (.notArr _) => false
  | .qnin (.notArr _) => false
  | _ => true

/-- The whole query is well-formed. -/
def queryWellFormed (q : List (String × QueryVal)) : Bool :=
  q.all (fun p => p.2.wellFormed)

theorem evalField_none_of_wellFormed (q : QueryVal) (hwf : q.wellFormed = true) :
    evalField q none = MatchResult.noMatch := by
  cases q with
  | qnull => simp [QueryVal.wellFormed] at hwf
  | plain v => rfl
  | qne arg =>
      cases arg with
      | nnull => simp [QueryVal.wellFormed] at hwf
      | nplain v => rfl
      | nin a =>
          cases a with
          | arrOk xs => rfl
          | notArr v => simp [QueryVal.wellFormed] at hwf
      | nnin a =>
          cases a with
          | arrOk xs => rfl
          | notArr v => simp [QueryVal.wellFormed] at hwf
  | qin a =>
      cases a with
      | arrOk xs => rfl
      | notArr v => simp [QueryVal.wellFormed] at hwf
  | qnin a =>
      cases a with
      | arrOk xs => rfl
      | notArr v => simp [QueryVal.wellFormed] at hwf

theorem evalField_no_error_of_wellFormed (q : QueryVal) (hwf : q.wellFormed = true)
    (ov : Option JsVal) :
    evalField q ov ≠ MatchResult.badQuery ∧ evalField q ov ≠ MatchResult.badIn := by
  cases hov : ov with
  | none =>
      rw [evalField_none_of_wellFormed q hwf]
      exact ⟨by simp, by simp⟩
  | some v =>
      cases q with
      | qnull => simp [QueryVal.wellFormed] at hwf
      | plain w =>
          simp only [evalField, evalSingle]
          constructor <;> split <;> simp
      | qne arg =>
          cases arg with
          | nnull => simp [QueryVal.wellFormed] at hwf
          | nplain w =>
              simp only [evalField, evalSingle]
              constructor <;> split <;> simp
          | nin a =>
              cases a with
              | arrOk xs =>
                  simp only [evalField, evalMulti]
                  constructor <;> split <;> split <;> simp
              | notArr w => simp [QueryVal.wellFormed] at hwf
          | nnin a =>
              cases a with
              | arrOk xs =>
                  simp only [evalField, evalMulti]
                  constructor <;> split <;> split <;> simp
              | notArr w => simp [QueryVal.wellFormed] at hwf
      | qin a =>
          cases a with
          | arrOk xs =>
              simp only [evalField, evalMulti]
              constructor <;> split <;> split <;> simp
          | notArr w => simp [QueryVal.wellFormed] at hwf
      | qnin a =>
          cases a with
          | arrOk xs =>
              simp only [evalField, evalMulti]
              constructor <;> split <;> split <;> simp
          | notArr w => simp [QueryVal.wellFormed] at hwf

/-- C5 counterexample: the claim quantifies over *every* query, but the
query `{a: null}` against a candidate lacking field `a` is reported as a bad
query (`-2`), not as a plain non-match — the null-value check precedes the
field-presence check. -/
theorem matcher_absent_field_counterexample :
    jsMatches [("a", QueryVal.qnull)] [] = MatchResult.badQuery ∧
    MatchResult.badQuery ≠ MatchResult.noMatch := by
  exact ⟨rfl, by simp⟩

/-- C5 (amended): the three concrete operator examples hold, and for every
*well-formed* query (no null/undefined search values, `$in`/`$nin` given
arrays) a query key absent from the candidate object makes the result a
non-match, never an error. -/
theorem matcher_examples_and_absent_field (q : List (String × QueryVal))
    (obj : List (String × JsVal)) (key : String)
    (hwf : queryWellFormed q = true) (hkey : key ∈ q.map Prod.fst)
    (habs : jsObjGet obj key = none) :
    jsMatches [("a", QueryVal.qin (QInArg.arrOk [JsVal.num 1, JsVal.num 2]))]
        [("a", JsVal.num 1)] = MatchResult.isMatch ∧
    jsMatches [("a", QueryVal.qnin (QInArg.arrOk [JsVal.num 1, JsVal.num 2]))]
        [("a", JsVal.num 1)] = MatchResult.noMatch ∧
    jsMatches [("a", QueryVal.qne (NeArg.nplain (JsVal.num 1)))]
        [("a", JsVal.num 1)] = MatchResult.noMatch ∧
    jsMatches q obj = MatchResult.noMatch := by
  refine ⟨by decide, by decide, by decide, ?_⟩
  induction q with
  | nil => simp at hkey
  | cons p qrest ih =>
      obtain ⟨k0, v0⟩ := p
      simp only [queryWellFormed, List.all_cons, Bool.and_eq_true] at hwf
      by_cases hk : k0 = key
      · subst hk
        rw [jsMatches, habs, evalField_none_of_wellFormed v0 hwf.1]
      · have hkey' : key ∈ qrest.map Prod.fst := by
          simp only [List.map_cons, List.mem_cons] at hkey
          rcases hkey with h1 | h1
          · exact absurd h1.symm hk
          · exact h1
        have hwf' : queryWellFormed qrest = true := hwf.2
        have hne := evalField_no_error_of_wellFormed v0 hwf.1 (jsObjGet obj k0)
        rw [jsMatches]
        rcases hev : evalField v0 (jsObjGet obj k0) with _ | _ | _ | _
        · exact absurd hev hne.1
        · exact absurd hev hne.2
        · rfl
        · exact ih hwf' hkey'

/-- Witness for C5 (amended) at the query `{a: 1, b: {$ne: 2}}` and the
candidate `{a: 1}` lacking field `b`. -/
theorem matcher_examples_and_absent_field_witness :
    jsMatches [("a", QueryVal.plain (JsVal.num 1)),
             ("b", QueryVal.qne (NeArg.nplain (JsVal.num 2)))]
        [("a", JsVal.num 1)] = MatchResult.noMatch :=
  (matcher_examples_and_absent_field
      [("a", QueryVal.plain (JsVal.num 1)),
       ("b", QueryVal.qne (NeArg.nplain (JsVal.num 2)))]
      [("a", JsVal.num 1)] "b" (by decide) (by decide) (by decide)).2.2.2

/-- C6 counterexample: for the query `{a: {$in: null}}` the matcher reports
the distinct code `-3` ("$in/$nin expect an array"), not the BadQuery code
`-2`; and with the query `{a: 1, b: null}` against `{}` the non-matching
earlier field short-circuits to a plain non-match and the null query value
in `b` is never reported at all. -/
theorem null_query_counterexample :
    (jsMatches [("a", QueryVal.qin (QInArg.notArr JsVal.null))] [("a", JsVal.num 1)]
        = MatchResult.badIn ∧
      MatchResult.badIn ≠ MatchResult.badQuery) ∧
    jsMatches [("a", QueryVal.plain (JsVal.num 1)), ("b", QueryVal.qnull)] []
        = MatchResult.noMatch := by
  exact ⟨⟨rfl, by simp⟩, rfl⟩

/-- C6 (amended): when the *first* query field carries the offending value,
a null/undefined search value at top level or under `$ne` is reported as
BadQuery (`-2`) for every candidate object, while a null/undefined (or any
non-array) `$in`/`$nin` argument is reported with the distinct
"$in/$nin expect an array" code (`-3`); later fields are only reached — and
their bad values only reported — when every earlier field matches. -/
theorem null_query_value_reporting (key : String) (v : JsVal)
    (qrest : List (String × QueryVal)) (obj : List (String × JsVal)) :
    jsMatches ((key, QueryVal.qnull) :: qrest) obj = MatchResult.badQuery ∧
    jsMatches ((key, QueryVal.qne NeArg.nnull) :: qrest) obj = MatchResult.badQuery ∧
    jsMatches ((key, QueryVal.qin (QInArg.notArr v)) :: qrest) obj = MatchResult.badIn ∧
    jsMatches ((key, QueryVal.qnin (QInArg.notArr v)) :: qrest) obj = MatchResult.badIn :=
  ⟨rfl, rfl, rfl, rfl⟩


/-! ## The `after` join primitive (`src/lib/protos/common.js`, `src/lib/view.js`)

`after(times, func)` returns a closure counting down `times` successful
completions.  The closure's captured state is `(calls, gotError)`; each
invocation takes an error-or-null argument and may invoke `func`.  The runs
below thread the state over a whole arrival sequence and collect every
invocation of `func` (with `none` standing for `func(null)`).
-/

/-- Captured state of the closure returned by `after`. -/
structure AfterState where
  calls : Int
  gotError : Bool
deriving Repr, DecidableEq

/-- Run the `after` closure over a sequence of completion calls, collecting
the invocations of `func`.  One invocation:
`if (error) { gotError = true; return func(error); }` then
`if (!gotError && --calls === 0) return func(null);` — note the decrement is
short-circuited away once `gotError` is set. -/
def afterGo {e : Type} (st : AfterState) : List (Option e) → List (Option e)
  | [] => []
  | ev :: rest =>
      match ev with
      | some err => some err :: afterGo { st with gotError := true } rest
      | none =>
          if st.gotError then afterGo st rest
          else
            let c := st.calls - 1
            if c = 0 then none :: afterGo { calls := c, gotError := st.gotError } rest
            else afterGo { calls := c, gotError := st.gotError } rest

/-- All invocations of `func` over a completion sequence for
`after(times, func)` with `times ≥ 1` (for `times === 0` the code calls
`func(null)` immediately and returns no closure). -/
def afterRun {e : Type} (times : Nat) (events : List (Option e)) : List (Option e) :=
  afterGo { calls := (times : Int), gotError := false } events

theorem afterGo_dead {e : Type} (events : List (Option e)) :
    ∀ (c : Int) (g : Bool), (g = true ∨ c ≤ 0) →
      afterGo { calls := c, gotError := g } events =
        events.filter (fun ev => ev.isSome) := by
  induction events with
  | nil => intro c g h; rfl
  | cons ev rest ih =>
      intro c g h
      match ev with
      | some err =>
          show some err :: afterGo { calls := c, gotError := true } rest = _
          rw [ih c true (Or.inl rfl)]
          simp [List.filter_cons]
      | none =>
          cases g with
          | true =>
              show afterGo { calls := c, gotError := true } rest = _
              rw [ih c true (Or.inl rfl)]
              simp [List.filter_cons]
          | false =>
              rcases h with h | hc
              · exact absurd h (by simp)
              · have hne : ¬ (c - 1 = 0) := by omega
                show (if c - 1 = 0 then
                        none :: afterGo { calls := c - 1, gotError := false } rest
                      else afterGo { calls := c - 1, gotError := false } rest) = _
                rw [if_neg hne, ih (c - 1) false (Or.inr (by omega))]
                simp [List.filter_cons]

theorem afterGo_run {e : Type} (events : List (Option e)) :
    ∀ c : Int, 1 ≤ c →
      afterGo { calls := c, gotError := false } events =
        (if c ≤ ((events.takeWhile (fun ev => ev.isNone)).length : Int) then [none] else [])
          ++ events.filter (fun ev => ev.isSome) := by
  induction events with
  | nil =>
      intro c hc
      show ([] : List (Option e)) = _
      rw [List.takeWhile_nil, List.filter_nil, List.append_nil,
        if_neg (by simp only [List.length_nil, Nat.cast_zero]; omega)]
  | cons ev rest ih =>
      intro c hc
      match ev with
      | some err =>
          show some err :: afterGo { calls := c, gotError := true } rest = _
          rw [afterGo_dead rest c true (Or.inl rfl)]
          have htw : (some err :: rest).takeWhile (fun ev => ev.isNone) =
              ([] : List (Option e)) := by
            simp [List.takeWhile_cons]
          rw [htw, if_neg (by simp only [List.length_nil, Nat.cast_zero]; omega)]
          simp [List.filter_cons]
      | none =>
          have htw : ((none :: rest).takeWhile (fun ev => ev.isNone)).length =
              (rest.takeWhile (fun ev => ev.isNone)).length + 1 := by
            simp [List.takeWhile_cons]
          have hfc : (none :: rest).filter (fun ev => ev.isSome) =
              rest.filter (fun ev => ev.isSome) := by
            simp [List.filter_cons]
          by_cases hone : c = 1
          · subst hone
            show (if (1 : Int) - 1 = 0 then
                    none :: afterGo { calls := (1 : Int) - 1, gotError := false } rest
                  else afterGo { calls := (1 : Int) - 1, gotError := false } rest) = _
            rw [if_pos (by omega), afterGo_dead rest ((1 : Int) - 1) false (Or.inr (by omega))]
            have hcond : (1 : Int) ≤
                (((none :: rest).takeWhile (fun ev => ev.isNone)).length : Int) := by
              rw [htw]; push_cast; omega
            rw [if_pos hcond, hfc]
            rfl
          · have hgt : 1 ≤ c - 1 := by omega
            have hne : ¬ (c - 1 = 0) := by omega
            show (if c - 1 = 0 then
                    none :: afterGo { calls := c - 1, gotError := false } rest
                  else afterGo { calls := c - 1, gotError := false } rest) = _
            rw [if_neg hne, ih (c - 1) hgt, hfc]
            by_cases hcond : c - 1 ≤ ((rest.takeWhile (fun ev => ev.isNone)).length : Int)
            · rw [if_pos hcond, if_pos (by rw [htw]; push_cast; omega)]
            · rw [if_neg hcond, if_neg (by rw [htw]; push_cast; omega)]

/-- C2 counterexample: `after(2, func)` invoked with two errors calls `func`
twice — the second error is not silently ignored, because the error branch
never consults `gotError`. -/
theorem after_counterexample :
    afterRun 2 [some 0, some 1] = [some (0 : Nat), some 1] ∧
    (afterRun 2 [some (0 : Nat), some 1]).length ≠ 1 := ⟨rfl, by decide⟩

/-- C2 (amended): for `N ≥ 1`, the continuation fires with `null` exactly
once, precisely when at least `N` successes arrive before the first error;
successes after the first error (or after the countdown is exhausted) are
silently ignored; but *every* error completion — including errors after the
first — invokes the continuation with that error, so the callback can fire
more than once.  The full invocation sequence is `[null]` (when `N`
successes precede the first error) followed by every error in arrival
order. -/
theorem after_invocations {e : Type} (n : Nat) (hn : 1 ≤ n) (events : List (Option e)) :
    afterRun n events =
      (if n ≤ (events.takeWhile (fun ev => ev.isNone)).length then [none] else [])
        ++ events.filter (fun ev => ev.isSome) := by
  have hc : (1 : Int) ≤ (n : Int) := by exact_mod_cast hn
  have := afterGo_run events (n : Int) hc
  rw [afterRun, this]
  have hiff : ((n : Int) ≤ ((events.takeWhile (fun ev => ev.isNone)).length : Int)) ↔
      (n ≤ (events.takeWhile (fun ev => ev.isNone)).length) := by
    exact_mod_cast Iff.rfl
  by_cases h : n ≤ (events.takeWhile (fun ev => ev.isNone)).length
  · rw [if_pos (hiff.mpr h), if_pos h]
  · rw [if_neg (fun hx => h (hiff.mp hx)), if_neg h]

/-- Witness for C2 (amended): `after(2, func)` fed success, error, success
invokes `func` exactly once, with the error. -/
theorem after_invocations_witness :
    afterRun 2 [none, some 5, none] =
      (if 2 ≤ (([none, some 5, none] : List (Option Nat)).takeWhile
          (fun ev => ev.isNone)).length then [none] else [])
        ++ ([none, some 5, none] : List (Option Nat)).filter (fun ev => ev.isSome) :=
  after_invocations 2 (by decide) [none, some 5, none]


/-! ## View composition (`src/lib/view.js`)

`load(view, options, callback)` creates `done = after(expectedCalls, handler)`
and starts one `loadProperty` per composed field.  Each sub-resolution
completes once, either with an error (`done(error)` — the field is not
written) or with a result (the field is written onto the view object, then
`done(null)`).  The handler forwards an error to the composed callback, or
freezes the view and delivers it.  A run is the arrival sequence of the N
sub-resolution completions.
-/

/-- Completion of one sub-resolution: an error, or a resolved value written
under the field key. -/
inductive LoadEvent (e a : Type) where
  | fail (err : e)
  | succeed (key : String) (v : a)
deriving Repr, DecidableEq

/-- One invocation of the composed callback: an error, or the (frozen) view
object delivered on total success. -/
inductive CbCall (e a : Type) where
  | err (err : e)
  | view (doc : List (String × a))
deriving Repr, DecidableEq

/-- Assignment `model[key] = result` on the view object. -/
def objSet {a : Type} : List (String × a) → String → a → List (String × a)
  | [], k, v => [(k, v)]
  | (k0, v0) :: rest, k, v =>
      if k0 = k then (k0, v) :: rest else (k0, v0) :: objSet rest k v

/-- Run `load`'s completions through the `after(expectedCalls, handler)`
state, collecting the composed-callback invocations.  A failure forwards the
error; a success writes the field and counts down, delivering the view on
the final countdown. -/
def viewGo {e a : Type} (st : AfterState) (view : List (String × a)) :
    List (LoadEvent e a) → List (CbCall e a)
  | [] => []
  | ev :: rest =>
      match ev with
      | .fail err => .err err :: viewGo { st with gotError := true } view rest
      | .succeed k v =>
          let view1 := objSet view k v
          if st.gotError then viewGo st view1 rest
          else
            if st.calls - 1 = 0 then
              .view view1 :: viewGo { calls := st.calls - 1, gotError := st.gotError } view1 rest
            else viewGo { calls := st.calls - 1, gotError := st.gotError } view1 rest

/-- All composed-callback invocations of `load` over a completion sequence,
for a View with `n ≥ 1` composed fields and base document `base`. -/
def viewLoad {e a : Type} (n : Nat) (base : List (String × a))
    (events : List (LoadEvent e a)) : List (CbCall e a) :=
  viewGo { calls := (n : Int), gotError := false } base events

/-- What the composed callback invocation looks like to `after`. -/
def cbToOpt {e a : Type} : CbCall e a → Option e
  | .err err => some err
  | .view _ => none

/-- What a completion looks like to `after`. -/
def evToOpt {e a : Type} : LoadEvent e a → Option e
  | .fail err => some err
  | .succeed _ _ => none

/-- The view object after a sequence of field writes. -/
def applyEvents {e a : Type} : List (String × a) → List (LoadEvent e a) → List (String × a)
  | view, [] => view
  | view, LoadEvent.fail _ :: rest => applyEvents view rest
  | view, LoadEvent.succeed k v :: rest => applyEvents (objSet view k v) rest

theorem viewGo_map {e a : Type} (events : List (LoadEvent e a)) :
    ∀ (c : Int) (g : Bool) (view : List (String × a)),
      (viewGo { calls := c, gotError := g } view events).map cbToOpt =
        afterGo { calls := c, gotError := g } (events.map evToOpt) := by
  induction events with
  | nil => intro c g view; rfl
  | cons ev rest ih =>
      intro c g view
      match ev with
      | .fail err =>
          show some err :: (viewGo { calls := c, gotError := true } view rest).map cbToOpt =
            some err :: afterGo { calls := c, gotError := true } (rest.map evToOpt)
          rw [ih c true view]
      | .succeed k v =>
          cases g with
          | true =>
              show (viewGo { calls := c, gotError := true } (objSet view k v) rest).map cbToOpt =
                afterGo { calls := c, gotError := true } (rest.map evToOpt)
              exact ih c true (objSet view k v)
          | false =>
              show (if c - 1 = 0 then
                      CbCall.view (objSet view k v) ::
                        viewGo { calls := c - 1, gotError := false } (objSet view k v) rest
                    else viewGo { calls := c - 1, gotError := false } (objSet view k v) rest).map
                      cbToOpt =
                  (if c - 1 = 0 then
                      none :: afterGo { calls := c - 1, gotError := false } (rest.map evToOpt)
                    else afterGo { calls := c - 1, gotError := false } (rest.map evToOpt))
              by_cases hz : c - 1 = 0
              · rw [if_pos hz, if_pos hz, List.map_cons, ih (c - 1) false (objSet view k v)]
                rfl
              · rw [if_neg hz, if_neg hz, ih (c - 1) false (objSet view k v)]

theorem viewGo_all_success {e a : Type} (events : List (LoadEvent e a)) :
    ∀ (c : Int) (view : List (String × a)),
      (∀ ev ∈ events, ∀ err, ev ≠ LoadEvent.fail err) →
      c = (events.length : Int) → 1 ≤ c →
      viewGo { calls := c, gotError := false } view events =
        [CbCall.view (applyEvents view events)] := by
  induction events with
  | nil =>
      intro c view hall hc h1
      rw [hc] at h1
      simp at h1
  | cons ev rest ih =>
      intro c view hall hc h1
      match ev with
      | .fail err => exact absurd rfl (hall _ (List.mem_cons_self _ _) err)
      | .succeed k v =>
          have hlen : c = (rest.length : Int) + 1 := by
            rw [hc, List.length_cons]
            push_cast
            ring
          by_cases hz : c - 1 = 0
          · have hrest : rest = [] := by
              have hr0 : (rest.length : Int) = 0 := by omega
              exact List.eq_nil_of_length_eq_zero (by exact_mod_cast hr0)
            subst hrest
            show (if c - 1 = 0 then
                    CbCall.view (objSet view k v) ::
                      viewGo { calls := c - 1, gotError := false } (objSet view k v) []
                  else viewGo { calls := c - 1, gotError := false } (objSet view k v) []) =
                [CbCall.view (applyEvents view [LoadEvent.succeed k v])]
            rw [if_pos hz]
            rfl
          · have h1' : 1 ≤ c - 1 := by omega
            have hcr : c - 1 = (rest.length : Int) := by omega
            have hall' : ∀ ev ∈ rest, ∀ err, ev ≠ LoadEvent.fail err :=
              fun ev hev => hall ev (List.mem_cons_of_mem _ hev)
            show (if c - 1 = 0 then
                    CbCall.view (objSet view k v) ::
                      viewGo { calls := c - 1, gotError := false } (objSet view k v) rest
                  else viewGo { calls := c - 1, gotError := false } (objSet view k v) rest) =
                [CbCall.view (applyEvents view (LoadEvent.succeed k v :: rest))]
            rw [if_neg hz, ih (c - 1) (objSet view k v) hall' hcr h1']
            rfl

theorem fail_takeWhile_lt {e a : Type} (events : List (LoadEvent e a)) (err : e)
    (hmem : LoadEvent.fail err ∈ events) :
    ((events.map evToOpt).takeWhile (fun o => o.isNone)).length < events.length := by
  have hlen : (events.map evToOpt).length = events.length := List.length_map _ _
  have hle : ((events.map evToOpt).takeWhile (fun o => o.isNone)).length ≤
      (events.map evToOpt).length := (List.takeWhile_prefix _).length_le
  rcases Nat.lt_or_ge ((events.map evToOpt).takeWhile (fun o => o.isNone)).length
      events.length with hlt | hge
  · exact hlt
  · exfalso
    have heq : ((events.map evToOpt).takeWhile (fun o => o.isNone)).length =
        (events.map evToOpt).length := by omega
    have hfull : (events.map evToOpt).takeWhile (fun o => o.isNone) =
        events.map evToOpt :=
      (List.takeWhile_prefix _).eq_of_length heq
    have hsome : (some err : Option e) ∈ events.map evToOpt := by
      have := List.mem_map_of_mem evToOpt hmem
      simpa [evToOpt] using this
    rw [← hfull] at hsome
    have := List.mem_takeWhile_imp hsome
    simp at this

theorem cb_of_map_single {e a : Type} (l : List (CbCall e a)) (err : e)
    (h : l.map cbToOpt = [some err]) : l = [CbCall.err err] := by
  match l with
  | [] => simp at h
  | [cb] =>
      cases cb with
      | err e2 =>
          simp only [List.map_cons, List.map_nil, cbToOpt, List.cons.injEq] at h
          rw [Option.some.injEq] at h
          rw [h.1]
      | view d => simp [cbToOpt] at h
  | cb1 :: cb2 :: l2 =>
      have := congrArg List.length h
      simp at this

/-- C4: for a View composed over `n ≥ 1` field resolvers and any arrival
order of the `n` sub-resolution completions: (1) if any sub-resolution
fails, every composed-callback invocation carries an error and the (frozen)
view object is never delivered; (2) if exactly one sub-resolution fails, the
composed callback receives only that error, exactly once; (3) if all `n`
succeed, the callback receives the fully resolved view object, exactly
once. -/
theorem view_fanout_atomicity {e a : Type} (n : Nat) (base : List (String × a))
    (events : List (LoadEvent e a)) (hlen : events.length = n) (hn : 1 ≤ n) :
    ((∃ err, LoadEvent.fail err ∈ events) →
        (∀ cb ∈ viewLoad n base events, ∃ err, cb = CbCall.err err)) ∧
    (∀ err, events.filter (fun ev => (evToOpt ev).isSome) = [LoadEvent.fail err] →
        viewLoad n base events = [CbCall.err err]) ∧
    ((∀ ev ∈ events, ∀ err, ev ≠ LoadEvent.fail err) →
        viewLoad n base events = [CbCall.view (applyEvents base events)]) := by
  have hmap := viewGo_map events (n : Int) false base
  have hrun := afterGo_run (events.map evToOpt) (n : Int) (by exact_mod_cast hn)
  refine ⟨?_, ?_, ?_⟩
  · rintro ⟨err, hmem⟩ cb hcb
    cases cb with
    | err e2 => exact ⟨e2, rfl⟩
    | view d =>
        exfalso
        have hlt := fail_takeWhile_lt events err hmem
        have hcond : ¬ ((n : Int) ≤
            (((events.map evToOpt).takeWhile (fun o => o.isNone)).length : Int)) := by
          rw [hlen] at hlt
          exact_mod_cast Nat.not_le.mpr hlt
        rw [if_neg (fun hx => hcond hx), List.nil_append] at hrun
        have hnone : (none : Option e) ∈ (viewLoad n base events).map cbToOpt := by
          have : cbToOpt (CbCall.view d) ∈ (viewLoad n base events).map cbToOpt :=
            List.mem_map_of_mem cbToOpt hcb
          simpa [cbToOpt] using this
        rw [viewLoad, hmap, hrun] at hnone
        have := List.mem_filter.mp hnone
        simp at this
  · intro err hfilter
    have hmem : LoadEvent.fail err ∈ events :=
      List.mem_of_mem_filter (hfilter ▸ List.mem_singleton_self _)
    have hlt := fail_takeWhile_lt events err hmem
    have hcond : ¬ ((n : Int) ≤
        (((events.map evToOpt).takeWhile (fun o => o.isNone)).length : Int)) := by
      rw [hlen] at hlt
      exact_mod_cast Nat.not_le.mpr hlt
    rw [if_neg (fun hx => hcond hx), List.nil_append] at hrun
    have hfe : (events.map evToOpt).filter (fun o => o.isSome) = [some err] := by
      have hcm : (events.map evToOpt).filter (fun o => o.isSome) =
          (events.filter (fun ev => (evToOpt ev).isSome)).map evToOpt := by
        rw [List.filter_map]
        rfl
      rw [hcm, hfilter]
      rfl
    apply cb_of_map_single
    rw [viewLoad, hmap, hrun, hfe]
  · intro hall
    exact viewGo_all_success events (n : Int) base hall (by rw [hlen]) (by exact_mod_cast hn)

/-- Witness for C4 with two composed fields: one failing completion delivers
only that error; two successes deliver the resolved view exactly once. -/
theorem view_fanout_atomicity_witness :
    viewLoad 2 [("b", 0)]
        ([LoadEvent.succeed "x" 5, LoadEvent.fail 9] : List (LoadEvent Nat Nat)) =
      [CbCall.err 9] ∧
    viewLoad 2 [("b", 0)]
        ([LoadEvent.succeed "x" 5, LoadEvent.succeed "y" 6] : List (LoadEvent Nat Nat)) =
      [CbCall.view (applyEvents [("b", 0)]
        ([LoadEvent.succeed "x" 5, LoadEvent.succeed "y" 6] : List (LoadEvent Nat Nat)))] :=
  ⟨(view_fanout_atomicity 2 [("b", 0)]
      ([LoadEvent.succeed "x" 5, LoadEvent.fail 9] : List (LoadEvent Nat Nat))
      rfl (by decide)).2.1 9 (by decide),
   (view_fanout_atomicity 2 [("b", 0)]
      ([LoadEvent.succeed "x" 5, LoadEvent.succeed "y" 6] : List (LoadEvent Nat Nat))
      rfl (by decide)).2.2
      (by
        intro ev hev err
        simp only [List.mem_cons, List.not_mem_nil, or_false] at hev
        rcases hev with h | h <;> subst h <;> simp)⟩


/-! ## Schema validation (`src/lib/schema.js`, `src/lib/model.js`)

Two validation pipelines exist across the source iterations:

* `model.js`: `buildInternalSchema` attaches `$set` setters built by
  `baseSetter(key, typeName, typeInstance)`; `initialize(schema, dbdata,
  collectionName)` walks the *input document's* keys, building a fresh
  internal document holding only schema-declared keys, and logs
  `<key> is not defined in the model [<collection>]` for unknown keys.
* `schema.js`: `compileSchema` attaches `$validate` validators built by
  `createValidator(baseType)`; `validate(schema, data, path)` walks the
  *schema's* keys, coercing `data` in place, then warns (without deleting)
  about leftover input keys, skipping `_id`.

Claims C3 and C9 mention flat schemas only, so the embedding covers leaf
(primitive) nodes.  `Date` and `Binary` markers (whose only extra behaviour
is the ISO-8601 date coercion) are not needed by any claim and are omitted.
Warnings are modelled as the list of offending keys (the code formats each
key into a `console.error` line).
-/

/-- Primitive schema type markers (the `case` switch of `createValidator`). -/
inductive PrimType where
  | pString
  | pNumber
  | pBoolean
  | pObjectId
  | pObject
deriving Repr, DecidableEq

/-- The `typeName` computed for each marker (`typeof` string). -/
def typeofName : PrimType → String
  | .pString => "string"
  | .pNumber => "number"
  | .pBoolean => "boolean"
  | .pObjectId => "object"
  | .pObject => "object"

/-- The readable name used in `createValidator` error messages. -/
def readableName : PrimType → String
  | .pObjectId => "ObjectId"
  | t => typeofName t

/-- JS `typeof` on a matcher value (`typeof null` is "object"). -/
def jsTypeofV : JsVal → String
  | .num _ => "number"
  | .str _ => "string"
  | .bool _ => "boolean"
  | .null => "object"
  | .oid _ => "object"
  | .obj _ => "object"

/-- JS `value instanceof baseType` (primitives are not instances of their
wrapper constructors). -/
def instanceOfPrim : JsVal → PrimType → Bool
  | .oid _, .pObjectId => true
  | .oid _, .pObject => true
  | .obj _, .pObject => true
  | _, _ => false

/-- 24-hex-character ObjectID string test (`/^[0-9a-fA-F]{24}$/`). -/
def isHex24 (s : String) : Bool :=
  s.length == 24 && s.toList.all (fun ch =>
    ch.isDigit || (decide ('a' ≤ ch) && decide (ch ≤ 'f')) || (decide ('A' ≤ ch) && decide (ch ≤ 'F')))

/-- `createValidator(baseType)` from `src/lib/schema.js`: accept
null/undefined (unless required), accept matching `typeof`/`instanceof`,
coerce 24-hex strings to ObjectIDs, reject everything else with
`<path> must have type: <name>`. -/
def createValidator (t : PrimType) (required : Bool) (value : Option JsVal)
    (path : String) : Except String (Option JsVal) :=
  match value with
  | none => if required then .error (path ++ " is required") else .ok none
  | some .null =>
      if required then .error (path ++ " is required") else .ok (some .null)
  | some v =>
      if jsTypeofV v = typeofName t ∨ instanceOfPrim v t then .ok (some v)
      else
        match t, v with
        | .pObjectId, .str s =>
            if isHex24 s then .ok (some (.oid s))
            else .error (path ++ " must have type: " ++ readableName .pObjectId)
        | _, _ => .error (path ++ " must have type: " ++ readableName t)

/-- `baseSetter(key, typeName, typeInstance)` from `src/lib/model.js`:
accept null/undefined and matching values unchanged, reject everything else
with `<key> must be a <typeName>` — no coercion of any kind. -/
def baseSetter (key : String) (typeName : String) (t : PrimType)
    (value : Option JsVal) : Except String (Option JsVal) :=
  match value with
  | none => .ok none
  | some .null => .ok (some .null)
  | some v =>
      if jsTypeofV v = typeName ∨ instanceOfPrim v t then .ok (some v)
      else .error (key ++ " must be a " ++ typeName)

/-- Schema-node read `schema[key]` for a flat schema. -/
def lookupPrim (schema : List (String × PrimType)) (key : String) : Option PrimType :=
  (schema.find? (fun p => p.1 = key)).map Prod.snd

/-- The loop of `initialize(schema, dbdata, collectionName)`: walk the input
document's keys in order; a schema-declared key is validated through its
`$set` and written to the fresh document (first write creates it), an
unknown key is logged and dropped.  A validation throw aborts the whole
initialization. -/
def initGo (schema : List (String × PrimType)) (cn : String) :
    List (String × JsVal) → Option (List (String × JsVal)) → List String →
      Except String (Option (List (String × JsVal)) × List String)
  | [], data, warns => .ok (data, warns)
  | (key, v) :: rest, data, warns =>
      match lookupPrim schema key with
      | some t =>
          match baseSetter key (typeofName t) t (some v) with
          | .error msg => .error msg
          | .ok none => initGo schema cn rest data warns
          | .ok (some v2) =>
              initGo schema cn rest (some (objSet (data.getD []) key v2)) warns
      | none => initGo schema cn rest data (warns ++ [key])

/-- `initialize(schema, dbdata, collectionName)` from `src/lib/model.js` on a flat schema, here named `initModel`: fresh document
(`undefined` until the first schema key is written), warnings as key
list. -/
def initModel (schema : List (String × PrimType)) (dbdata : List (String × JsVal))
    (cn : String) : Except String (Option (List (String × JsVal)) × List String) :=
  initGo schema cn dbdata none []

/-- `delete data[key]` on a document object. -/
def objDel {a : Type} (obj : List (String × a)) (key : String) : List (String × a) :=
  obj.filter (fun p => ¬ p.1 = key)

/-- One compiled leaf of the `schema.js` internal schema: primitive type
plus the `$required` flag consulted by `createValidator`. -/
structure SNode where
  t : PrimType
  required : Bool
deriving Repr, DecidableEq

/-- The schema-key loop of `validate(schema, data, path)` from
`src/lib/schema.js`: for each schema key run `$validate(data[key])`; an
undefined result deletes the key, a defined result overwrites it in place;
a throw aborts. -/
def svGo (path : String) : List (String × SNode) → List (String × JsVal) →
    Except String (List (String × JsVal))
  | [], data => .ok data
  | (key, node) :: rest, data =>
      match createValidator node.t node.required (jsObjGet data key)
          (path ++ "." ++ key) with
      | .error msg => .error msg
      | .ok none => svGo path rest (objDel data key)
      | .ok (some v2) => svGo path rest (objSet data key v2)

/-- `validate(schema, data, path)` from `src/lib/schema.js`: run the schema
loop, then warn about the input keys with no schema node — except `_id`,
which is spliced out of the leftover list before the warnings are printed.
No unknown key is ever deleted from `data`. -/
def svValidate (schema : List (String × SNode)) (data : List (String × JsVal))
    (path : String) : Except String (List (String × JsVal) × List String) :=
  match svGo path schema data with
  | .error msg => .error msg
  | .ok data2 =>
      let leftover := (data.map Prod.fst).filter
        (fun k => ¬ (schema.map Prod.fst).contains k)
      .ok (data2, leftover.filter (fun k => ¬ (k = "_id")))

/-- C3 counterexample: there is no string-to-number coercion.  Validating
the string "42" against a `Number` node fails with a type error in both
pipelines (`baseSetter` in `model.js`, `createValidator` in `schema.js`),
so the claimed coerced output is never produced. -/
theorem coercion_counterexample :
    baseSetter "age" "number" PrimType.pNumber (some (JsVal.str "42"))
        = .error "age must be a number" ∧
    createValidator PrimType.pNumber false (some (JsVal.str "42")) "age"
        = .error "age must have type: number" ∧
    initModel [("name", PrimType.pString), ("age", PrimType.pNumber)]
        [("name", JsVal.str "Bob"), ("age", JsVal.str "42"), ("extra", JsVal.bool true)]
        "people"
        = .error "age must be a number" :=
  ⟨rfl, rfl, rfl⟩

/-- C3 (amended): the scenario input `{name:"Bob", age:"42", extra:true}`
raises the type error `age must be a number` — the only coercions in the
validators are 24-hex strings to ObjectIDs (and ISO strings to Dates);
strings are never coerced to numbers.  With `age` already the number 42 the
validation succeeds, `extra` *is* dropped with a drift warning, and the
coerced output is `{name:"Bob", age:42}`. -/
theorem validation_scenario :
    initModel [("name", PrimType.pString), ("age", PrimType.pNumber)]
        [("name", JsVal.str "Bob"), ("age", JsVal.str "42"), ("extra", JsVal.bool true)]
        "people"
        = .error "age must be a number" ∧
    initModel [("name", PrimType.pString), ("age", PrimType.pNumber)]
        [("name", JsVal.str "Bob"), ("age", JsVal.num 42), ("extra", JsVal.bool true)]
        "people"
        = .ok (some [("name", JsVal.str "Bob"), ("age", JsVal.num 42)], ["extra"]) ∧
    createValidator PrimType.pObjectId false
        (some (JsVal.str "0123456789abcdef01234567")) "ref"
        = .ok (some (JsVal.oid "0123456789abcdef01234567")) :=
  ⟨rfl, rfl, rfl⟩


theorem objSet_map_fst {a : Type} (obj : List (String × a)) (key : String) (v : a) :
    (objSet obj key v).map Prod.fst =
      if obj.any (fun p => p.1 = key) then obj.map Prod.fst
      else obj.map Prod.fst ++ [key] := by
  induction obj with
  | nil => simp [objSet]
  | cons p rest ih =>
      obtain ⟨k0, v0⟩ := p
      by_cases h : k0 = key
      · simp [objSet, h]
      · by_cases hr : rest.any (fun p => p.1 = key)
        · simp [objSet, h, ih, hr]
        · simp [objSet, h, ih, hr]
theorem jsObjGet_some_any {a : Type} (obj : List (String × a)) (key : String) (w : a)
    (h : (obj.find? (fun p => p.1 = key)).map Prod.snd = some w) :
    obj.any (fun p => p.1 = key) = true := by
  rcases hf : obj.find? (fun p => p.1 = key) with _ | q
  · rw [hf] at h
    exact Option.noConfusion h
  · have hq := List.find?_some hf
    exact List.any_eq_true.mpr ⟨q, List.mem_of_find?_eq_some hf, hq⟩

theorem initGo_cons_unknown (schema : List (String × PrimType)) (cn key : String)
    (v : JsVal) (rest : List (String × JsVal)) (data : Option (List (String × JsVal)))
    (warns : List String) (hl : lookupPrim schema key = none) :
    initGo schema cn ((key, v) :: rest) data warns =
      initGo schema cn rest data (warns ++ [key]) := by
  rw [initGo, hl]

theorem initGo_cons_err (schema : List (String × PrimType)) (cn key : String)
    (v : JsVal) (rest : List (String × JsVal)) (data : Option (List (String × JsVal)))
    (warns : List String) (t : PrimType) (msg : String)
    (hl : lookupPrim schema key = some t)
    (hb : baseSetter key (typeofName t) t (some v) = .error msg) :
    initGo schema cn ((key, v) :: rest) data warns = .error msg := by
  rw [initGo, hl]
  show (match baseSetter key (typeofName t) t (some v) with
        | Except.error msg => Except.error msg
        | Except.ok none => initGo schema cn rest data warns
        | Except.ok (some v2) =>
            initGo schema cn rest (some (objSet (data.getD []) key v2)) warns) = _
  rw [hb]

theorem initGo_cons_skip (schema : List (String × PrimType)) (cn key : String)
    (v : JsVal) (rest : List (String × JsVal)) (data : Option (List (String × JsVal)))
    (warns : List String) (t : PrimType)
    (hl : lookupPrim schema key = some t)
    (hb : baseSetter key (typeofName t) t (some v) = .ok none) :
    initGo schema cn ((key, v) :: rest) data warns =
      initGo schema cn rest data warns := by
  rw [initGo, hl]
  show (match baseSetter key (typeofName t) t (some v) with
        | Except.error msg => Except.error msg
        | Except.ok none => initGo schema cn rest data warns
        | Except.ok (some v2) =>
            initGo schema cn rest (some (objSet (data.getD []) key v2)) warns) = _
  rw [hb]

theorem initGo_cons_set (schema : List (String × PrimType)) (cn key : String)
    (v : JsVal) (rest : List (String × JsVal)) (data : Option (List (String × JsVal)))
    (warns : List String) (t : PrimType) (v2 : JsVal)
    (hl : lookupPrim schema key = some t)
    (hb : baseSetter key (typeofName t) t (some v) = .ok (some v2)) :
    initGo schema cn ((key, v) :: rest) data warns =
      initGo schema cn rest (some (objSet (data.getD []) key v2)) warns := by
  rw [initGo, hl]
  show (match baseSetter key (typeofName t) t (some v) with
        | Except.error msg => Except.error msg
        | Except.ok none => initGo schema cn rest data warns
        | Except.ok (some v2) =>
            initGo schema cn rest (some (objSet (data.getD []) key v2)) warns) = _
  rw [hb]

theorem initGo_spec (schema : List (String × PrimType)) (cn : String)
    (dbdata : List (String × JsVal)) :
    ∀ (data : Option (List (String × JsVal))) (warns : List String)
      (out : Option (List (String × JsVal))) (warns2 : List String),
      initGo schema cn dbdata data warns = .ok (out, warns2) →
      (warns2 = warns ++
        (dbdata.filter (fun p => lookupPrim schema p.1 = none)).map Prod.fst) ∧
      (∀ d2, out = some d2 → ∀ key ∈ d2.map Prod.fst,
        key ∈ (data.getD []).map Prod.fst ∨ lookupPrim schema key ≠ none) := by
  induction dbdata with
  | nil =>
      intro data warns out warns2 h
      rw [initGo, Except.ok.injEq, Prod.mk.injEq] at h
      obtain ⟨h1, h2⟩ := h
      subst h1
      subst h2
      refine ⟨by simp, ?_⟩
      intro d2 hd2 key hkey
      subst hd2
      left
      simpa using hkey
  | cons p rest ih =>
      intro data warns out warns2 h
      obtain ⟨key0, v0⟩ := p
      rcases hl : lookupPrim schema key0 with _ | t
      · rw [initGo_cons_unknown schema cn key0 v0 rest data warns hl] at h
        obtain ⟨h1, h2⟩ := ih data (warns ++ [key0]) out warns2 h
        refine ⟨?_, h2⟩
        rw [h1, List.filter_cons]
        simp [hl, List.append_assoc]
      · rcases hb : baseSetter key0 (typeofName t) t (some v0) with msg | v2
        · rw [initGo_cons_err schema cn key0 v0 rest data warns t msg hl hb] at h
          exact Except.noConfusion h
        · rcases v2 with _ | v2
          · rw [initGo_cons_skip schema cn key0 v0 rest data warns t hl hb] at h
            obtain ⟨h1, h2⟩ := ih data warns out warns2 h
            refine ⟨?_, h2⟩
            rw [h1, List.filter_cons]
            simp [hl]
          · rw [initGo_cons_set schema cn key0 v0 rest data warns t v2 hl hb] at h
            obtain ⟨h1, h2⟩ :=
              ih (some (objSet (data.getD []) key0 v2)) warns out warns2 h
            refine ⟨?_, ?_⟩
            · rw [h1, List.filter_cons]
              simp [hl]
            · intro d2 hd2 key hkey
              rcases h2 d2 hd2 key hkey with hin | hkn
              · simp only [Option.getD_some] at hin
                rw [objSet_map_fst] at hin
                by_cases ha : (data.getD []).any (fun p => p.1 = key0)
                · rw [if_pos ha] at hin
                  exact Or.inl hin
                · rw [if_neg ha, List.mem_append, List.mem_singleton] at hin
                  rcases hin with hin | hin
                  · exact Or.inl hin
                  · subst hin
                    right
                    rw [hl]
                    simp
              · exact Or.inr hkn

theorem cvHexAux (s p : String)
    (h : (if isHex24 s = true then Except.ok (some (JsVal.oid s))
          else Except.error (p ++ " must have type: " ++ readableName PrimType.pObjectId))
        = Except.ok none) : False := by
  by_cases hx : isHex24 s = true
  · rw [if_pos hx] at h
    exact Option.noConfusion (Except.ok.inj h)
  · rw [if_neg hx] at h
    exact Except.noConfusion h

theorem createValidator_ok_none (t : PrimType) (r : Bool) (v : Option JsVal)
    (p : String) (h : createValidator t r v p = .ok none) : v = none := by
  rcases v with _ | w
  · rfl
  · exfalso
    cases r <;> cases w <;> cases t <;>
      simp only [createValidator, jsTypeofV, typeofName, instanceOfPrim] at h <;>
      first
        | exact cvHexAux _ _ h
        | simp_all

theorem createValidator_ok_some_input (t : PrimType) (r : Bool) (v : Option JsVal)
    (p : String) (v2 : JsVal) (h : createValidator t r v p = .ok (some v2)) :
    ∃ w, v = some w := by
  rcases v with _ | w
  · exfalso
    rw [createValidator] at h
    split at h
    · exact Except.noConfusion h
    · rw [Except.ok.injEq] at h
      exact Option.noConfusion h
  · exact ⟨w, rfl⟩

theorem svGo_cons_err (path key : String) (node : SNode) (rest : List (String × SNode))
    (data : List (String × JsVal)) (msg : String)
    (hcv : createValidator node.t node.required (jsObjGet data key)
        (path ++ "." ++ key) = .error msg) :
    svGo path ((key, node) :: rest) data = .error msg := by
  rw [svGo, hcv]

theorem svGo_cons_del (path key : String) (node : SNode) (rest : List (String × SNode))
    (data : List (String × JsVal))
    (hcv : createValidator node.t node.required (jsObjGet data key)
        (path ++ "." ++ key) = .ok none) :
    svGo path ((key, node) :: rest) data = svGo path rest (objDel data key) := by
  rw [svGo, hcv]

theorem svGo_cons_set (path key : String) (node : SNode) (rest : List (String × SNode))
    (data : List (String × JsVal)) (v2 : JsVal)
    (hcv : createValidator node.t node.required (jsObjGet data key)
        (path ++ "." ++ key) = .ok (some v2)) :
    svGo path ((key, node) :: rest) data = svGo path rest (objSet data key v2) := by
  rw [svGo, hcv]

theorem svGo_preserves_keys (path : String) (schema : List (String × SNode)) :
    ∀ data data2, svGo path schema data = .ok data2 →
      data2.map Prod.fst = data.map Prod.fst := by
  induction schema with
  | nil =>
      intro data data2 h
      rw [svGo, Except.ok.injEq] at h
      rw [h]
  | cons p rest ih =>
      intro data data2 h
      obtain ⟨key, node⟩ := p
      rcases hcv : createValidator node.t node.required (jsObjGet data key)
          (path ++ "." ++ key) with msg | v2
      · rw [svGo_cons_err path key node rest data msg hcv] at h
        exact Except.noConfusion h
      · rcases v2 with _ | v2
        · have hnone : jsObjGet data key = none :=
            createValidator_ok_none node.t node.required (jsObjGet data key) _ hcv
          have hdel : objDel data key = data := by
            apply List.filter_eq_self.mpr
            intro q hq
            simp only [decide_eq_true_eq]
            intro hk
            rw [jsObjGet] at hnone
            rcases hf : data.find? (fun p => p.1 = key) with _ | q2
            · have := List.find?_eq_none.mp hf q hq
              simp [hk] at this
            · rw [hf] at hnone
              exact Option.noConfusion hnone
          rw [svGo_cons_del path key node rest data hcv, hdel] at h
          exact ih data data2 h
        · rw [svGo_cons_set path key node rest data v2 hcv] at h
          have hset := ih (objSet data key v2) data2 h
          rw [hset, objSet_map_fst]
          obtain ⟨w, hw⟩ := createValidator_ok_some_input node.t node.required
            (jsObjGet data key) _ v2 hcv
          rw [if_pos (jsObjGet_some_any data key w hw)]

theorem svValidate_spec (schema : List (String × SNode)) (data : List (String × JsVal))
    (path : String) (data2 : List (String × JsVal)) (warns2 : List String)
    (h : svValidate schema data path = .ok (data2, warns2)) :
    data2.map Prod.fst = data.map Prod.fst ∧
    "_id" ∉ warns2 ∧
    (∀ k ∈ warns2, k ∈ data.map Prod.fst ∧ k ∉ schema.map Prod.fst) ∧
    (∀ k ∈ data.map Prod.fst, k ∉ schema.map Prod.fst → k ≠ "_id" → k ∈ warns2) := by
  rw [svValidate] at h
  rcases hsv : svGo path schema data with msg | dd
  · rw [hsv] at h
    exact Except.noConfusion h
  · rw [hsv, Except.ok.injEq, Prod.mk.injEq] at h
    obtain ⟨hd, hw⟩ := h
    subst hd
    refine ⟨svGo_preserves_keys path schema data dd hsv, ?_, ?_, ?_⟩
    · intro hmem
      rw [← hw] at hmem
      have := (List.mem_filter.mp hmem).2
      simp at this
    · intro k hk
      rw [← hw] at hk
      have h1 := List.mem_filter.mp hk
      have h2 := List.mem_filter.mp h1.1
      refine ⟨h2.1, ?_⟩
      have h3 := h2.2
      simp only [decide_eq_true_eq] at h3
      intro hmem
      exact h3 (List.contains_iff_exists_mem_beq.mpr ⟨k, hmem, by simp⟩)
    · intro k hk hns hnid
      rw [← hw]
      apply List.mem_filter.mpr
      refine ⟨List.mem_filter.mpr ⟨hk, ?_⟩, by simpa using hnid⟩
      simp only [decide_eq_true_eq]
      intro hc
      obtain ⟨b, hb, hbeq⟩ := List.contains_iff_exists_mem_beq.mp hc
      exact hns (by rw [eq_of_beq hbeq]; exact hb)

/-- C9 counterexample: `_id` does not pass through.  In `initialize`
(`model.js`) an input `_id` with no schema node is dropped and warned about
like any other unknown key; and in `validate` (`schema.js`) unknown keys are
*not* dropped at all — the input key `junk` survives into the output
document (only a warning is printed, with `_id` merely exempted from the
warning). -/
theorem id_passthrough_counterexample :
    (initModel [("name", PrimType.pString)]
        [("_id", JsVal.oid "aaaaaaaaaaaaaaaaaaaaaaaa"), ("name", JsVal.str "Bob")]
        "people"
      = .ok (some [("name", JsVal.str "Bob")], ["_id"])) ∧
    "_id" ∉ [("name", JsVal.str "Bob")].map Prod.fst ∧
    (svValidate [("name", { t := PrimType.pString, required := false })]
        [("name", JsVal.str "Bob"), ("junk", JsVal.num 1)] "doc"
      = .ok ([("name", JsVal.str "Bob"), ("junk", JsVal.num 1)], ["junk"])) :=
  ⟨rfl, by decide, rfl⟩

/-- C9 (amended): in the `model.js` `initialize` pipeline every input key
with no matching schema node — including `_id` — is dropped from the coerced
output and logged as drift; in the `schema.js` `validate` pipeline no key is
ever dropped (unknown keys survive in the document), and the `_id`
exemption applies only to the drift warning: every other unknown input key
is warned about, and `_id` never is. -/
theorem unknown_key_handling
    (schema : List (String × PrimType)) (dbdata : List (String × JsVal)) (cn : String)
    (out : Option (List (String × JsVal))) (warns : List String)
    (h1 : initModel schema dbdata cn = .ok (out, warns))
    (sschema : List (String × SNode)) (data : List (String × JsVal)) (path : String)
    (data2 : List (String × JsVal)) (warns2 : List String)
    (h2 : svValidate sschema data path = .ok (data2, warns2)) :
    (∀ d2, out = some d2 → ∀ key ∈ d2.map Prod.fst, lookupPrim schema key ≠ none) ∧
    (warns = (dbdata.filter (fun p => lookupPrim schema p.1 = none)).map Prod.fst) ∧
    data2.map Prod.fst = data.map Prod.fst ∧
    "_id" ∉ warns2 ∧
    (∀ k ∈ warns2, k ∈ data.map Prod.fst ∧ k ∉ sschema.map Prod.fst) ∧
    (∀ k ∈ data.map Prod.fst, k ∉ sschema.map Prod.fst → k ≠ "_id" → k ∈ warns2) := by
  obtain ⟨hw, hout⟩ := initGo_spec schema cn dbdata none [] out warns h1
  obtain ⟨hk, hid, hwarn, hconv⟩ := svValidate_spec sschema data path data2 warns2 h2
  refine ⟨?_, by simpa using hw, hk, hid, hwarn, hconv⟩
  intro d2 hd2 key hkey
  rcases hout d2 hd2 key hkey with hin | hkn
  · simp at hin
  · exact hkn

/-- Witness for C9 (amended) on concrete documents containing `_id` and
unknown keys in both pipelines. -/
theorem unknown_key_handling_witness :
    (∀ key ∈ [("name", JsVal.str "Bob")].map Prod.fst,
        lookupPrim [("name", PrimType.pString)] key ≠ none) ∧
    (["_id", "junk"] =
      (([("_id", JsVal.oid "aaaaaaaaaaaaaaaaaaaaaaaa"), ("name", JsVal.str "Bob"),
          ("junk", JsVal.num 1)] : List (String × JsVal)).filter
        (fun p => lookupPrim [("name", PrimType.pString)] p.1 = none)).map Prod.fst) ∧
    "_id" ∉ ["junk2"] :=
  have h := unknown_key_handling [("name", PrimType.pString)]
    [("_id", JsVal.oid "aaaaaaaaaaaaaaaaaaaaaaaa"), ("name", JsVal.str "Bob"),
      ("junk", JsVal.num 1)] "people"
    (some [("name", JsVal.str "Bob")]) ["_id", "junk"] rfl
    [("name", { t := PrimType.pString, required := false })]
    [("name", JsVal.str "Bob"), ("_id", JsVal.oid "aaaaaaaaaaaaaaaaaaaaaaaa"),
      ("junk2", JsVal.num 2)] "doc"
    [("name", JsVal.str "Bob"), ("_id", JsVal.oid "aaaaaaaaaaaaaaaaaaaaaaaa"),
      ("junk2", JsVal.num 2)] ["junk2"] rfl
  ⟨h.1 [("name", JsVal.str "Bob")] rfl, h.2.1, h.2.2.2.1⟩

/-! ## `Model.loadDbRef` (`src/lib/model.js`, lines 1488-1564)

The array branch of `loadDbRef(ids, fields, options, callback)`: scan `ids`
in order, serving cached entries into the sparse `result` array and
grouping the positions of the remaining ids into `index`; then issue one
`find({_id: {$in: idsToFind}})` and write each returned model into every
position recorded for its id.  JS arrays are sparse: `result[i] = v` just
records an assignment and `result.length` is one more than the highest
assigned index — `jsaToList` materializes the array the callback receives.
Ids are modelled by their 24-hex strings (the `ids[i] instanceof ObjectID`
guard is enforced by the type); the `putToCache` writes performed while
reassembling do not affect the result and are omitted.
-/

/-- A stored document: `_id` hex string plus opaque payload. -/
structure MDoc where
  id : String
  payload : Nat
deriving Repr, DecidableEq

/-- Sparse-array assignment `result[i] = v`. -/
def jsaSet {a : Type} (arr : List (Nat × a)) (i : Nat) (v : a) : List (Nat × a) :=
  arr ++ [(i, v)]

/-- Sparse-array read `result[i]` (`undefined` for a hole); the last
assignment wins. -/
def jsaGet {a : Type} (arr : List (Nat × a)) (i : Nat) : Option a :=
  (arr.reverse.find? (fun p => p.1 = i)).map Prod.snd

/-- `result.length`: one more than the highest assigned index. -/
def jsaLen {a : Type} (arr : List (Nat × a)) : Nat :=
  arr.foldr (fun p m => max (p.1 + 1) m) 0

/-- The dense array the callback receives, holes as `undefined`. -/
def jsaToList {a : Type} (arr : List (Nat × a)) : List (Option a) :=
  (List.range (jsaLen arr)).map (fun i => jsaGet arr i)

/-- `index[hex].push(i)` with `index[hex] = [i]` for a fresh hex. -/
def ixAdd (ix : List (String × List Nat)) (id : String) (i : Nat) :
    List (String × List Nat) :=
  match ix with
  | [] => [(id, [i])]
  | (k, l) :: rest =>
      if k = id then (k, l ++ [i]) :: rest else (k, l) :: ixAdd rest id i

/-- `index[hex]` (`[]` for a hex never recorded, which the reassembly loop
never reads). -/
def ixLookup (ix : List (String × List Nat)) (id : String) : List Nat :=
  match ix.find? (fun p => p.1 = id) with
  | some p => p.2
  | none => []

/-- State of the first loop over `ids`. -/
structure ScanState where
  result : List (Nat × MDoc)
  idsToFind : List String
  index : List (String × List Nat)
deriving Repr, DecidableEq

/-- The first loop of `loadDbRef`: position `i` of a cached id is served
immediately; an uncached id is queued for the batched find and its position
appended to the id's bucket. -/
def scanIds (cache : String → Option MDoc) :
    List (Nat × String) → ScanState → ScanState
  | [], st => st
  | (i, id) :: rest, st =>
      match cache id with
      | some d => scanIds cache rest { st with result := jsaSet st.result i d }
      | none =>
          scanIds cache rest
            { st with idsToFind := st.idsToFind ++ [id],
                      index := ixAdd st.index id i }

/-- The backing store's answer to `find({_id: {$in: idsToFind}})`: every
stored document whose `_id` is among the requested ids, in store order. -/
def mFind (store : List MDoc) (idsToFind : List String) : List MDoc :=
  store.filter (fun d => idsToFind.contains d.id)

/-- The reassembly loop: write each found model into every position recorded
for its id. -/
def reassemble (index : List (String × List Nat)) (models : List MDoc)
    (result : List (Nat × MDoc)) : List (Nat × MDoc) :=
  models.foldl (fun r m => (ixLookup index m.id).foldl (fun r j => jsaSet r j m) r) result

/-- The array branch of `Model.loadDbRef` against a backing store and the
by-id cache. -/
def loadDbRef (ids : List String) (cache : String → Option MDoc)
    (store : List MDoc) : Except String (List (Option MDoc)) :=
  if ids.isEmpty then .ok []
  else
    let st := scanIds cache ids.enum { result := [], idsToFind := [], index := [] }
    if st.idsToFind.isEmpty then .ok (jsaToList st.result)
    else .ok (jsaToList (reassemble st.index (mFind store st.idsToFind) st.result))

/-- C1 counterexample: with an empty backing store (a subset of any id set)
and one requested id, the callback receives `[]` — length 0, not 1: a
missing trailing document shortens the result array instead of leaving an
`undefined` slot, because only found models are ever assigned into the
sparse result. -/
theorem loadDbRef_counterexample :
    loadDbRef ["aaaaaaaaaaaaaaaaaaaaaaaa"] (fun _ => none) [] = .ok [] ∧
    ([] : List (Option MDoc)).length ≠ ["aaaaaaaaaaaaaaaaaaaaaaaa"].length :=
  ⟨rfl, by decide⟩


theorem scanIds_none (l : List (Nat × String)) :
    ∀ st, scanIds (fun _ => none) l st =
      { result := st.result,
        idsToFind := st.idsToFind ++ l.map Prod.snd,
        index := l.foldl (fun ix p => ixAdd ix p.2 p.1) st.index } := by
  induction l with
  | nil => intro st; simp [scanIds]
  | cons p rest ih =>
      intro st
      obtain ⟨i, id⟩ := p
      show scanIds (fun _ => none) rest
          { st with idsToFind := st.idsToFind ++ [id], index := ixAdd st.index id i } = _
      rw [ih]
      simp [List.append_assoc]

theorem ixLookup_ixAdd (ix : List (String × List Nat)) (id : String) (i : Nat)
    (id' : String) :
    ixLookup (ixAdd ix id i) id' =
      if id' = id then ixLookup ix id' ++ [i] else ixLookup ix id' := by
  induction ix with
  | nil =>
      by_cases h : id' = id
      · subst h
        simp [ixAdd, ixLookup, List.find?]
      · have h2 : ¬ (id = id') := fun hx => h hx.symm
        simp [ixAdd, ixLookup, List.find?, h, h2]
  | cons p rest ih =>
      obtain ⟨k, l⟩ := p
      by_cases hk : k = id
      · subst hk
        by_cases h : id' = k
        · subst h
          simp [ixAdd, ixLookup, List.find?]
        · have h2 : ¬ (k = id') := fun hx => h hx.symm
          simp [ixAdd, ixLookup, List.find?, h, h2]
      · by_cases h : id' = k
        · subst h
          simp [ixAdd, ixLookup, List.find?, hk]
        · have h2 : ¬ (k = id') := fun hx => h hx.symm
          by_cases h3 : id' = id
          · subst h3
            simp only [ixAdd, if_neg hk]
            simp only [ixLookup, List.find?, h2, decide_eq_false, Bool.false_eq_true]
            simpa [ixLookup] using ih
          · simp only [ixAdd, if_neg hk]
            simp only [ixLookup, List.find?, h2, decide_eq_false, Bool.false_eq_true]
            simpa [ixLookup, h3] using ih

theorem ixLookup_fold (l : List (Nat × String)) :
    ∀ (ix : List (String × List Nat)) (id : String),
      ixLookup (l.foldl (fun ix p => ixAdd ix p.2 p.1) ix) id =
        ixLookup ix id ++ (l.filter (fun p => p.2 = id)).map Prod.fst := by
  induction l with
  | nil => intro ix id; simp
  | cons p rest ih =>
      intro ix id
      obtain ⟨i, pid⟩ := p
      rw [List.foldl_cons, ih, ixLookup_ixAdd]
      by_cases h : id = pid
      · rw [if_pos h]
        have h2 : pid = id := h.symm
        simp [List.filter_cons, h2, List.append_assoc]
      · rw [if_neg h]
        have h2 : ¬ (pid = id) := fun hx => h hx.symm
        simp [List.filter_cons, h2]

theorem mem_positions (ids : List String) (id : String) (j : Nat) :
    j ∈ (ids.enum.filter (fun p => p.2 = id)).map Prod.fst ↔
      ∃ h : j < ids.length, ids[j] = id := by
  constructor
  · intro hj
    obtain ⟨p, hp, hpe⟩ := List.mem_map.mp hj
    have h1 := List.mem_filter.mp hp
    have h2 : p ∈ ids.enum := h1.1
    have h3 : p.2 = id := by simpa using h1.2
    obtain ⟨i, x⟩ := p
    have h4 : ids[i]? = some x := List.mk_mem_enum_iff_getElem?.mp h2
    rw [List.getElem?_eq_some] at h4
    obtain ⟨hlt, hval⟩ := h4
    subst hpe
    exact ⟨hlt, by rw [hval]; exact h3⟩
  · intro hj
    obtain ⟨hlt, hval⟩ := hj
    refine List.mem_map.mpr ⟨(j, ids[j]), List.mem_filter.mpr ⟨?_, by simpa using hval⟩, rfl⟩
    exact List.mk_mem_enum_iff_getElem?.mpr (List.getElem?_eq_getElem hlt)

theorem foldl_jsaSet_positions {a : Type} (ps : List Nat) (m : a) :
    ∀ r : List (Nat × a),
      ps.foldl (fun r j => jsaSet r j m) r = r ++ ps.map (fun j => (j, m)) := by
  induction ps with
  | nil => intro r; simp
  | cons j ps ih =>
      intro r
      rw [List.foldl_cons, ih, jsaSet]
      simp

theorem reassemble_eq (index : List (String × List Nat)) (models : List MDoc) :
    ∀ result, reassemble index models result =
      result ++ models.flatMap (fun m => (ixLookup index m.id).map (fun j => (j, m))) := by
  induction models with
  | nil => intro result; simp [reassemble]
  | cons m models ih =>
      intro result
      show reassemble index models
          ((ixLookup index m.id).foldl (fun r j => jsaSet r j m) result) = _
      rw [ih, foldl_jsaSet_positions]
      simp [List.append_assoc]

theorem jsaGet_unique {a : Type} (arr : List (Nat × a)) (i : Nat) (d : a)
    (hex2 : (i, d) ∈ arr) (huniq : ∀ p ∈ arr, p.1 = i → p.2 = d) :
    jsaGet arr i = some d := by
  rw [jsaGet]
  rcases hf : arr.reverse.find? (fun p => p.1 = i) with _ | q
  · exfalso
    have := List.find?_eq_none.mp hf (i, d) (List.mem_reverse.mpr hex2)
    simp at this
  · have hq1 := List.find?_some hf
    have hq3 : q ∈ arr := List.mem_reverse.mp (List.mem_of_find?_eq_some hf)
    have hq4 : q.2 = d := huniq q hq3 (by simpa using hq1)
    rw [hf]
    simp [hq4]

theorem jsaLen_le {a : Type} (arr : List (Nat × a)) (n : Nat)
    (hub : ∀ p ∈ arr, p.1 < n) : jsaLen arr ≤ n := by
  induction arr with
  | nil => simp [jsaLen]
  | cons p rest ih =>
      have h1 := hub p (List.mem_cons_self p rest)
      have h2 := ih (fun q hq => hub q (List.mem_cons_of_mem p hq))
      simp only [jsaLen, List.foldr_cons] at *
      omega

theorem le_jsaLen {a : Type} (arr : List (Nat × a)) (j : Nat) (d : a)
    (hm : (j, d) ∈ arr) : j + 1 ≤ jsaLen arr := by
  induction arr with
  | nil => simp at hm
  | cons p rest ih =>
      rcases List.mem_cons.mp hm with h | h
      · subst h
        simp only [jsaLen, List.foldr_cons]
        omega
      · have := ih h
        simp only [jsaLen, List.foldr_cons] at *
        omega


/-- C1 (amended): when the backing store holds a document for *every*
requested id (and the by-id cache is empty), `loadDbRef` delivers an array
whose length equals `ids.length` and whose `i`-th entry is exactly the
stored document with `_id = ids[i]`, duplicates included — the order and
length of the input are preserved.  For a store covering only a proper
subset of the ids the positions of missing documents are left unassigned,
so the delivered array is shorter whenever trailing ids are missing (see
the counterexample). -/
theorem loadDbRef_order_preserving (ids : List String) (store : List MDoc)
    (hnd : (store.map MDoc.id).Nodup)
    (hcov : ∀ id ∈ ids, ∃ d ∈ store, d.id = id) :
    ∃ out, loadDbRef ids (fun _ => none) store = .ok out ∧
      out.length = ids.length ∧
      out = ids.map (fun id => store.find? (fun d => d.id = id)) ∧
      ∀ o ∈ out, o.isSome = true := by
  have hfind : ∀ id ∈ ids, ∃ d, store.find? (fun dd => dd.id = id) = some d ∧
      d ∈ store ∧ d.id = id := by
    intro id hid
    rcases hf : store.find? (fun dd => dd.id = id) with _ | d2
    · exfalso
      obtain ⟨d, hd, hde⟩ := hcov id hid
      have := List.find?_eq_none.mp hf d hd
      simp [hde] at this
    · exact ⟨d2, hf, List.mem_of_find?_eq_some hf, by simpa using List.find?_some hf⟩
  by_cases hne : ids = []
  · subst hne
    exact ⟨[], rfl, rfl, rfl, by simp⟩
  · have hn : 0 < ids.length := List.length_pos.mpr hne
    have hstep1 : loadDbRef ids (fun _ => none) store =
        .ok (jsaToList (reassemble
          (ids.enum.foldl (fun ix p => ixAdd ix p.2 p.1) [])
          (mFind store ids) [])) := by
      simp only [loadDbRef, scanIds_none, List.enum_map_snd, List.nil_append,
        List.isEmpty_iff, hne, if_false]
    have hix : ∀ id, ixLookup (ids.enum.foldl (fun ix p => ixAdd ix p.2 p.1) []) id =
        (ids.enum.filter (fun p => p.2 = id)).map Prod.fst := by
      intro id
      rw [ixLookup_fold]
      simp [ixLookup]
    have hre := reassemble_eq (ids.enum.foldl (fun ix p => ixAdd ix p.2 p.1) [])
      (mFind store ids) []
    rw [List.nil_append] at hre
    set A := (mFind store ids).flatMap
      (fun m => (ixLookup (ids.enum.foldl (fun ix p => ixAdd ix p.2 p.1) []) m.id).map
        (fun j => (j, m))) with hA
    have hmem : ∀ (j : Nat) (m : MDoc), (j, m) ∈ A ↔
        m ∈ mFind store ids ∧ ∃ h : j < ids.length, ids[j] = m.id := by
      intro j m
      constructor
      · intro hin
        obtain ⟨m2, hm2, hmap⟩ := List.mem_flatMap.mp hin
        obtain ⟨j2, hj2, hpair⟩ := List.mem_map.mp hmap
        rw [Prod.mk.injEq] at hpair
        rw [hix] at hj2
        obtain ⟨rfl, rfl⟩ := hpair
        exact ⟨hm2, (mem_positions _ _ _).mp hj2⟩
      · intro hin
        obtain ⟨hm, hpos⟩ := hin
        refine List.mem_flatMap.mpr ⟨m, hm, List.mem_map.mpr ⟨j, ?_, rfl⟩⟩
        rw [hix]
        exact (mem_positions ids m.id j).mpr hpos
    have hgetA : ∀ i (hi : i < ids.length),
        jsaGet A i = store.find? (fun dd => dd.id = ids[i]) := by
      intro i hi
      obtain ⟨d, hdf, hdmem, hdid⟩ := hfind ids[i] (List.getElem_mem hi)
      rw [hdf]
      apply jsaGet_unique
      · apply (hmem i d).mpr
        refine ⟨?_, ⟨hi, hdid.symm⟩⟩
        apply List.mem_filter.mpr
        refine ⟨hdmem, ?_⟩
        exact List.contains_iff_exists_mem_beq.mpr
          ⟨ids[i], List.getElem_mem hi, by simp [hdid]⟩
      · intro p hp hpi
        obtain ⟨j, m⟩ := p
        have hji : j = i := hpi
        subst hji
        obtain ⟨hmm, hlt2, hid2⟩ := (hmem j m).mp hp
        have hms : m ∈ store := (List.mem_filter.mp hmm).1
        have hsame : MDoc.id m = MDoc.id d := by
          rw [← hid2, hdid]
        exact congrArg Prod.snd
          (congrArg (Prod.mk j) (List.inj_on_of_nodup_map hnd hms hdmem hsame))
    have hub : ∀ p ∈ A, p.1 < ids.length := by
      intro p hp
      obtain ⟨j, m⟩ := p
      obtain ⟨_, hlt, _⟩ := (hmem j m).mp hp
      exact hlt
    have hlen : jsaLen A = ids.length := by
      have h1 := jsaLen_le A ids.length hub
      obtain ⟨d, hdf, hdmem, hdid⟩ :=
        hfind ids[ids.length - 1] (List.getElem_mem (by omega))
      have hinA : (ids.length - 1, d) ∈ A := by
        apply (hmem (ids.length - 1) d).mpr
        refine ⟨?_, ⟨by omega, hdid.symm⟩⟩
        apply List.mem_filter.mpr
        refine ⟨hdmem, ?_⟩
        exact List.contains_iff_exists_mem_beq.mpr
          ⟨ids[ids.length - 1], List.getElem_mem (by omega), by simp [hdid]⟩
      have h2 := le_jsaLen A (ids.length - 1) d hinA
      omega
    refine ⟨jsaToList (reassemble
        (ids.enum.foldl (fun ix p => ixAdd ix p.2 p.1) [])
        (mFind store ids) []), hstep1, ?_, ?_, ?_⟩
    · rw [hre, jsaToList, hlen]
      simp
    · rw [hre, jsaToList, hlen]
      apply List.ext_getElem
      · simp
      · intro i h1 h2
        rw [List.getElem_map, List.getElem_range, List.getElem_map]
        exact hgetA i (by simpa using h2)
    · rw [hre, jsaToList, hlen]
      intro o ho
      obtain ⟨i, hi, hoe⟩ := List.mem_map.mp ho
      have hi2 : i < ids.length := by simpa using List.mem_range.mp hi
      rw [← hoe, hgetA i hi2]
      obtain ⟨d, hdf, _, _⟩ := hfind ids[i] (List.getElem_mem hi2)
      rw [hdf]
      rfl

/-- Witness for C1 (amended): two ids, one repeated, store holding both
documents. -/
theorem loadDbRef_order_preserving_witness :
    loadDbRef ["aaaaaaaaaaaaaaaaaaaaaaaa", "bbbbbbbbbbbbbbbbbbbbbbbb",
        "aaaaaaaaaaaaaaaaaaaaaaaa"] (fun _ => none)
      [{ id := "bbbbbbbbbbbbbbbbbbbbbbbb", payload := 2 },
       { id := "aaaaaaaaaaaaaaaaaaaaaaaa", payload := 1 }] =
      .ok [some { id := "aaaaaaaaaaaaaaaaaaaaaaaa", payload := 1 },
           some { id := "bbbbbbbbbbbbbbbbbbbbbbbb", payload := 2 },
           some { id := "aaaaaaaaaaaaaaaaaaaaaaaa", payload := 1 }] := by
  obtain ⟨out, h1, h2, h3, h4⟩ := loadDbRef_order_preserving
    ["aaaaaaaaaaaaaaaaaaaaaaaa", "bbbbbbbbbbbbbbbbbbbbbbbb",
        "aaaaaaaaaaaaaaaaaaaaaaaa"]
    [{ id := "bbbbbbbbbbbbbbbbbbbbbbbb", payload := 2 },
     { id := "aaaaaaaaaaaaaaaaaaaaaaaa", payload := 1 }]
    (by decide)
    (by
      intro id hid
      rcases List.mem_cons.mp hid with h | h
      · exact ⟨{ id := "aaaaaaaaaaaaaaaaaaaaaaaa", payload := 1 }, by simp, by rw [h]⟩
      · rcases List.mem_cons.mp h with h2 | h2
        · exact ⟨{ id := "bbbbbbbbbbbbbbbbbbbbbbbb", payload := 2 }, by simp, by rw [h2]⟩
        · rcases List.mem_cons.mp h2 with h3 | h3
          · exact ⟨{ id := "aaaaaaaaaaaaaaaaaaaaaaaa", payload := 1 }, by simp, by rw [h3]⟩
          · exact absurd h3 (List.not_mem_nil id))
  rw [h1, h3]
  rfl


end PODM
